import Mathlib

/-!
Verification of the PyBaMM discretisation engine
(`src/pybamm/discretisations/discretisation.py`).

The definitions below are a shallow embedding of the `Discretisation`
class: variable layout (`set_variable_slices`), the memoized lowering pass
(`process_symbol` / `_process_symbol`), internal boundary-condition
synthesis (`set_internal_boundary_conditions`), mass-matrix assembly
(`create_mass_matrix`), the empty-model check in `process_model`, the
completeness check of `_concatenate_in_order`, the broadcast rule of
`process_dict`, and the `bcs` property setter.

Modelling conventions:
* domains and variable names are `Nat` labels; a mesh is a function from
  domain label to `npts_for_broadcast_to_nodes`, and the spatial method's
  `_get_auxiliary_domain_repeats` is a function from the auxiliary-domain
  list to a repeat count;
* Python's structural symbol equality/hashing (symbols are content-hashed
  by kind, name, domain and children) is modelled by structural equality
  of the `Sym` inductive;
* Python object identity of freshly built lowered nodes is modelled by an
  allocation counter: every node constructed by the engine (state vectors,
  spatial-method results, internal Neumann conditions) carries the counter
  value at its construction, so "the same object" is "the same allocation
  id" while structural equality ignores nothing (two fresh builds of the
  same value get different ids).
-/

namespace PybammDisc

/-- A Python `slice(start, stop)` with unit step, as produced by
`set_variable_slices`. -/
structure Slice where
  start : Nat
  stop : Nat
deriving DecidableEq, Repr

/-- CPython compares slices like the tuples `(start, stop, step)`;
all slices built by the engine have `step = None`, so the comparison used
by `sorted` in `create_mass_matrix` and `_concatenate_in_order` is the
lexicographic order on `(start, stop)`. -/
def Slice.ltb (a b : Slice) : Bool :=
  a.start < b.start || (a.start == b.start && a.stop < b.stop)

/-- A `pybamm.Variable`: a name, a (primary) domain given as a list of
sub-domain labels, and the auxiliary (secondary/tertiary) domains that
determine the repeat factor. -/
structure PlainVar where
  name : Nat
  domain : List Nat
  auxDomains : List Nat
deriving DecidableEq, Repr

/-- A declared unknown: either a plain `pybamm.Variable` or a
`pybamm.ConcatenationVariable` with its child variables. -/
inductive Var where
  | plain : PlainVar → Var
  | concatV : (name : Nat) → (children : List PlainVar) → (auxDomains : List Nat) → Var
deriving DecidableEq, Repr

/-- The domain of a `ConcatenationVariable` is the concatenation of its
children's domains. -/
def Var.domain : Var → List Nat
  | .plain v => v.domain
  | .concatV _ children _ => (children.map PlainVar.domain).flatten

/-- The mesh and spatial-method data consumed by the layout builder:
`npts d` is `mesh[d].npts_for_broadcast_to_nodes` and `repeats aux` is
`spatial_method._get_auxiliary_domain_repeats` on the auxiliary domains. -/
structure MeshEnv where
  npts : Nat → Nat
  repeats : List Nat → Nat

/-- `Discretisation._get_variable_size` (discretisation.py lines 322-333):
size 1 for a variable with empty domain, otherwise the sum over its
sub-domains of `npts * repeats`. -/
def getVariableSize (env : MeshEnv) (v : PlainVar) : Nat :=
  if v.domain = [] then 1
  else (v.domain.map (fun dom => env.npts dom * env.repeats v.auxDomains)).sum

/-- Width contributed by one concatenation child in one auxiliary repeat:
the inner loop `for domain_mesh in mesh: end += domain_mesh.npts_for_broadcast_to_nodes`
of `set_variable_slices` (lines 290-298). -/
def childWidth (env : MeshEnv) (c : PlainVar) : Nat :=
  (c.domain.map env.npts).sum

/-- Total width of a declared unknown, as accumulated by
`set_variable_slices`: `_get_variable_size` for a plain variable, and
`sec_points` passes over all children's domain meshes for a
`ConcatenationVariable`. -/
def varWidth (env : MeshEnv) : Var → Nat
  | .plain v => getVariableSize env v
  | .concatV _ children aux => env.repeats aux * (children.map (childWidth env)).sum

/-- One pass of the child loop of `set_variable_slices` (lines 291-298):
each child gets `slice(start_, end)` and `start_` moves to `end`. -/
def layoutChildrenOnce (env : MeshEnv) : List PlainVar → Nat → List (PlainVar × Slice)
  | [], _ => []
  | c :: cs, s =>
    (c, ⟨s, s + childWidth env c⟩) :: layoutChildrenOnce env cs (s + childWidth env c)

/-- The `for i in range(sec_points)` loop of `set_variable_slices`
(lines 290-298): one pass over the children per auxiliary repeat. -/
def layoutChildrenRepeats (env : MeshEnv) (children : List PlainVar) :
    Nat → Nat → List (PlainVar × Slice)
  | 0, _ => []
  | n + 1, s =>
    layoutChildrenOnce env children s ++
      layoutChildrenRepeats env children n (s + (children.map (childWidth env)).sum)

/-- The layout record produced for one declared unknown by
`set_variable_slices`: the slice appended to `y_slices[variable]` and, for
a `ConcatenationVariable`, the slices appended to `y_slices[child]`. -/
structure LayoutEntry where
  var : Var
  ySlice : Slice
  childSlices : List (PlainVar × Slice)
deriving DecidableEq, Repr

/-- The main loop of `Discretisation.set_variable_slices`
(discretisation.py lines 261-320), threading the running offset `start`:
a concatenation lays out `sec_points` repeats of its children and every
variable gets `slice(start, end)` with `end = start + width`.
(The population of the index-aligned lower/upper bound arrays, lines
306-307, and the cache reset of line 320 are not modelled here.) -/
def layoutFrom (env : MeshEnv) : List Var → Nat → List LayoutEntry
  | [], _ => []
  | v :: vs, s =>
    let e := s + varWidth env v
    let cs : List (PlainVar × Slice) :=
      match v with
      | .plain _ => []
      | .concatV _ children aux => layoutChildrenRepeats env children (env.repeats aux) s
    ⟨v, ⟨s, e⟩, cs⟩ :: layoutFrom env vs e

/-- `Discretisation.set_variable_slices` starts the layout at offset 0. -/
def setVariableSlices (env : MeshEnv) (vars : List Var) : List LayoutEntry :=
  layoutFrom env vars 0

/-- `covers a l b` holds when the slices of `l`, in order, tile the
half-open interval `[a, b)` exactly: each slice starts where the previous
one stopped, with no gap and no overlap. -/
def covers : Nat → List Slice → Nat → Bool
  | a, [], b => a == b
  | a, s :: rest, b => s.start == a && decide (a ≤ s.stop) && covers s.stop rest b

theorem covers_append {l₁ l₂ : List Slice} {a b c : Nat}
    (h₁ : covers a l₁ b = true) (h₂ : covers b l₂ c = true) :
    covers a (l₁ ++ l₂) c = true := by
  induction l₁ generalizing a with
  | nil =>
    simp only [covers, beq_iff_eq] at h₁
    simpa [h₁] using h₂
  | cons s rest ih =>
    simp only [covers, Bool.and_eq_true] at h₁ ⊢
    exact ⟨⟨h₁.1.1, h₁.1.2⟩, ih h₁.2⟩

theorem layoutChildrenOnce_covers (env : MeshEnv) (cs : List PlainVar) (s : Nat) :
    covers s ((layoutChildrenOnce env cs s).map Prod.snd)
      (s + (cs.map (childWidth env)).sum) = true := by
  induction cs generalizing s with
  | nil => simp [layoutChildrenOnce, covers]
  | cons c rest ih =>
    simp only [layoutChildrenOnce, List.map_cons, List.map, covers, List.sum_cons,
      Bool.and_eq_true, beq_iff_eq, decide_eq_true_eq]
    refine ⟨⟨trivial, Nat.le_add_right _ _⟩, ?_⟩
    have := ih (s + childWidth env c)
    simpa [Nat.add_assoc] using this

theorem layoutChildrenRepeats_covers (env : MeshEnv) (children : List PlainVar)
    (n s : Nat) :
    covers s ((layoutChildrenRepeats env children n s).map Prod.snd)
      (s + n * (children.map (childWidth env)).sum) = true := by
  induction n generalizing s with
  | zero => simp [layoutChildrenRepeats, covers]
  | succ m ih =>
    simp only [layoutChildrenRepeats, List.map_append]
    refine covers_append (layoutChildrenOnce_covers env children s) ?_
    have := ih (s + (children.map (childWidth env)).sum)
    have harith :
        s + (children.map (childWidth env)).sum
            + m * (children.map (childWidth env)).sum
          = s + (m + 1) * (children.map (childWidth env)).sum := by ring
    rwa [harith] at this

theorem layoutFrom_covers (env : MeshEnv) (vs : List Var) (s : Nat) :
    covers s ((layoutFrom env vs s).map LayoutEntry.ySlice)
      (s + (vs.map (varWidth env)).sum) = true := by
  induction vs generalizing s with
  | nil => simp [layoutFrom, covers]
  | cons v rest ih =>
    simp only [layoutFrom, List.map_cons, covers, List.sum_cons, Bool.and_eq_true,
      beq_iff_eq, decide_eq_true_eq]
    refine ⟨⟨trivial, Nat.le_add_right _ _⟩, ?_⟩
    have := ih (s + varWidth env v)
    simpa [Nat.add_assoc] using this

theorem layoutFrom_childSlices_cover (env : MeshEnv) (vs : List Var) (s : Nat) :
    ∀ e ∈ layoutFrom env vs s, ∀ nm ch aux, e.var = Var.concatV nm ch aux →
      covers e.ySlice.start (e.childSlices.map Prod.snd) e.ySlice.stop = true := by
  induction vs generalizing s with
  | nil => intro e he; simp [layoutFrom] at he
  | cons v rest ih =>
    intro e he nm ch aux hv
    simp only [layoutFrom, List.mem_cons] at he
    rcases he with he | he
    · subst he
      simp only at hv
      subst hv
      simpa [varWidth] using
        layoutChildrenRepeats_covers env ch (env.repeats aux) s
    · exact ih (s + varWidth env v) e he nm ch aux hv

theorem covers_chain {l : List Slice} :
    ∀ {a b : Nat}, covers a l b = true →
      l.Chain' (fun x y => x.start ≤ y.start) := by
  induction l with
  | nil => intro a b _; exact List.chain'_nil
  | cons s rest ih =>
    intro a b h
    simp only [covers, Bool.and_eq_true, beq_iff_eq, decide_eq_true_eq] at h
    obtain ⟨⟨hs, hle⟩, hrest⟩ := h
    cases rest with
    | nil => simp
    | cons t ts =>
      refine List.Chain'.cons ?_ (ih hrest)
      simp only [covers, Bool.and_eq_true, beq_iff_eq, decide_eq_true_eq] at hrest
      omega

/-- C1. Once `set_variable_slices` has laid out every declared unknown,
the per-unknown slices tile `[0, N)` in order — gapless, non-overlapping,
already sorted by start index — where `N` is the sum of the declared
unknowns' widths (width = sum over sub-domains of node counts times the
auxiliary repeat factor, width 1 for a domain-less variable); and the
child slices of every `ConcatenationVariable` tile exactly their parent's
slice. -/
theorem set_variable_slices_partitions (env : MeshEnv) (vars : List Var) :
    covers 0 ((setVariableSlices env vars).map LayoutEntry.ySlice)
        ((vars.map (varWidth env)).sum) = true
    ∧ ((setVariableSlices env vars).map LayoutEntry.ySlice).Chain'
        (fun x y => x.start ≤ y.start)
    ∧ ∀ e ∈ setVariableSlices env vars, ∀ nm ch aux,
        e.var = Var.concatV nm ch aux →
        covers e.ySlice.start (e.childSlices.map Prod.snd) e.ySlice.stop = true := by
  have h0 := layoutFrom_covers env vars 0
  exact ⟨by simpa [setVariableSlices] using h0,
    covers_chain (by simpa [setVariableSlices] using h0),
    layoutFrom_childSlices_cover env vars 0⟩

/-- A concrete two-unknown model exercising
`set_variable_slices_partitions`: a 3-sub-domain concatenation variable
(5/3/5 nodes) followed by a domain-less scalar unknown. -/
def meshEnvA : MeshEnv where
  npts := fun d => if d = 0 then 5 else if d = 1 then 3 else if d = 2 then 5 else 0
  repeats := fun _ => 1

def concatVarA : Var :=
  Var.concatV 10 [⟨0, [0], []⟩, ⟨1, [1], []⟩, ⟨2, [2], []⟩] []

theorem set_variable_slices_partitions_witness :
    covers 0 ((setVariableSlices meshEnvA [concatVarA, Var.plain ⟨3, [], []⟩]).map
        LayoutEntry.ySlice)
        (([concatVarA, Var.plain ⟨3, [], []⟩].map (varWidth meshEnvA)).sum) = true
    ∧ ((setVariableSlices meshEnvA [concatVarA, Var.plain ⟨3, [], []⟩]).map
        LayoutEntry.ySlice).Chain' (fun x y => x.start ≤ y.start)
    ∧ ∀ e ∈ setVariableSlices meshEnvA [concatVarA, Var.plain ⟨3, [], []⟩],
        ∀ nm ch aux, e.var = Var.concatV nm ch aux →
        covers e.ySlice.start (e.childSlices.map Prod.snd) e.ySlice.stop = true :=
  set_variable_slices_partitions meshEnvA [concatVarA, Var.plain ⟨3, [], []⟩]

/-! ## The expression language and the memoized lowering pass -/

/-- Operator code of `pybamm.Multiplication` (`*`). -/
def multOp : Nat := 0
/-- Operator code of `pybamm.Division` (`/`). -/
def divOp : Nat := 1

/-- Expression-tree nodes, covering the node kinds the claims need.
The first group are input nodes (`Scalar`, `Vector`, `Variable`, binary
operators, `Integral`, the `_BaseAverage` subclasses `XAverage`-style and
`SizeAverage`, `FullBroadcast`); the second group are nodes built by the
engine (`StateVector`, spatial-method results, the spatial method's
`internal_neumann_condition` result), each carrying the allocation id it
was given at construction. Structural equality of this type models
pybamm's content-based symbol equality/hashing. -/
inductive Sym where
  | scalar (v : Int)
  | vector (vals : List Int)
  | variableS (name : Nat) (domain : List Nat) (auxDomains : List Nat)
  | bin (op : Nat) (l r : Sym)
  | integralS (intVarDom : Nat) (child : Sym)
  | xAvg (intVarDom : Nat) (child : Sym)
  | sizeAvg (intVarDom : Nat) (fa : Sym) (child : Sym)
  | fullBroadcast (doms : List Nat) (child : Sym)
  | stateVec (allocId : Nat) (slices : List Slice) (domain : List Nat)
  | binDisc (allocId : Nat) (op : Nat) (l r : Sym)
  | integralDisc (allocId : Nat) (intVarDom : Nat) (child : Sym)
  | broadcastDisc (allocId : Nat) (doms : List Nat) (child : Sym)
  | internalNC (allocId : Nat) (l r : Sym)
deriving DecidableEq, Repr

/-- The domain a node reports (`symbol.domain`): a binary operator
combines its children's domains (they agree or one is empty), integrals
and averages integrate the domain out, broadcasts carry their target. -/
def Sym.domain : Sym → List Nat
  | .scalar _ => []
  | .vector _ => []
  | .variableS _ d _ => d
  | .bin _ l r => if l.domain = [] then r.domain else l.domain
  | .integralS _ _ => []
  | .xAvg _ _ => []
  | .sizeAvg _ _ _ => []
  | .fullBroadcast ds _ => ds
  | .stateVec _ _ d => d
  | .binDisc _ _ l r => if l.domain = [] then r.domain else l.domain
  | .integralDisc _ _ _ => []
  | .broadcastDisc _ ds _ => ds
  | .internalNC _ _ _ => []

/-- Modelled from the spec (`pybamm.Symbol.is_constant`, not under
`src/`): a node is constant when no state-vector reference or unknown
variable occurs in it. -/
def Sym.isConstant : Sym → Bool
  | .scalar _ => true
  | .vector _ => true
  | .bin _ l r => l.isConstant && r.isConstant
  | .binDisc _ _ l r => l.isConstant && r.isConstant
  | .fullBroadcast _ c => c.isConstant
  | _ => false

/-- Recognizer for the opaque internal-Neumann-condition nodes built by
`boundary_gradient`. -/
def Sym.isInternalNC : Sym → Bool
  | .internalNC _ _ _ => true
  | _ => false

/-- The read-only collaborators the lowering pass consults: the mesh
(`npts`), the spatial method's auxiliary repeat count (`repeats`), the
variable layout `self.y_slices` keyed by variable name (`ySlicesOf`), and
an evaluator for the (opaque) binary operator semantics used by constant
folding (`binEval`). -/
structure DiscEnv where
  npts : Nat → Nat
  repeats : List Nat → Nat
  ySlicesOf : Nat → List Slice
  binEval : Nat → Int → Int → Int

/-- Constant evaluation used by `simplify_if_constant`. -/
def evalConstant (env : DiscEnv) : Sym → Option Int
  | .scalar v => some v
  | .bin op l r =>
    match evalConstant env l, evalConstant env r with
    | some a, some b => some (env.binEval op a b)
    | _, _ => none
  | .binDisc _ op l r =>
    match evalConstant env l, evalConstant env r with
    | some a, some b => some (env.binEval op a b)
    | _, _ => none
  | _ => none

/-- Modelled from the spec (`pybamm.simplify_if_constant`, not under
`src/`): "constant-fold immediately if neither child carries a domain" —
a constant node whose value can be computed is replaced by a fresh
`Scalar` of that value, anything else is returned unchanged. -/
def simplifyIfConstant (env : DiscEnv) (s : Sym) : Sym :=
  if s.isConstant then
    match evalConstant env s with
    | some v => .scalar v
    | none => s
  else s

/-- Modelled from the spec (`pybamm.ones_like`, not under `src/`): the
all-ones weight used by the plain-average rewrite, spanning the child's
domain (a plain scalar 1 for a domain-less child). -/
def onesLike (c : Sym) : Sym :=
  if c.domain = [] then .scalar 1 else .fullBroadcast c.domain (.scalar 1)

/-- Recursion measure for the lowering pass: ordinary nodes measure their
tree size, averaging nodes get extra headroom because `_process_symbol`
re-enters the pass on the strictly smaller integral-ratio rewrite. -/
def msize : Sym → Nat
  | .scalar _ => 1
  | .vector _ => 1
  | .variableS _ _ _ => 1
  | .bin _ l r => 1 + msize l + msize r
  | .integralS _ c => 1 + msize c
  | .xAvg _ c => 8 + msize c
  | .sizeAvg _ fa c => 8 + 2 * msize fa + msize c
  | .fullBroadcast _ c => 1 + msize c
  | .stateVec _ _ _ => 1
  | .binDisc _ _ l r => 1 + msize l + msize r
  | .integralDisc _ _ c => 1 + msize c
  | .broadcastDisc _ _ c => 1 + msize c
  | .internalNC _ l r => 1 + msize l + msize r

theorem msize_pos (s : Sym) : 1 ≤ msize s := by
  cases s <;> simp [msize] <;> omega

/-- The mutable state of one discretisation run: the memoization dict
`self._discretised_symbols` (keyed by structural identity) and the
allocation counter that models Python object identity of freshly built
nodes. -/
structure DState where
  cache : List (Sym × Sym)
  counter : Nat
deriving DecidableEq, Repr

/-- First-match lookup in the memoization dict. -/
def lookupCache : List (Sym × Sym) → Sym → Option Sym
  | [], _ => none
  | (k, v) :: rest, s => if k = s then some v else lookupCache rest s

/-- `Discretisation.process_symbol` / `_process_symbol`
(discretisation.py lines 802-1045), fuel-indexed so that the definition
is structurally recursive (the wrapper below always supplies sufficient
fuel, and `processSymbolFuel_irrel` shows any sufficient fuel gives the
same result).  The outer `match` is the memo wrapper `process_symbol`:
a cache hit returns the stored object unchanged, a miss dispatches and
stores the result.  The inner `match` is `_process_symbol`'s dispatch,
restricted to the node kinds modelled here:
* binary operators lower both children, then either constant-fold
  (`simplify_if_constant` on `_binary_new_copy`, domain-less case) or call
  the spatial method's `process_binary_operators` (modelled as an opaque
  fresh node);
* `_BaseAverage` nodes are rewritten to `Integral(weighted child) /
  Integral(weight)` and re-entered through `process_symbol`;
* `Integral` and `FullBroadcast` dispatch to the spatial method
  (opaque fresh nodes); a domain-less broadcast becomes
  `disc_child * Vector([1])`;
* a `Variable` becomes a fresh `StateVector` over its registered slices;
* everything already concrete falls through unchanged ("Backup option:
  return the object").
The mesh/secondary-mesh attributes stamped on the result (lines 824-835)
are diagnostic only and not modelled; the tab-side remap (lines 843-849)
is not modelled (no tab-sided conditions appear here). -/
def processSymbolAux (env : DiscEnv) (recur : Sym → DState → Sym × DState)
    (s : Sym) (σ : DState) : Sym × DState :=
  match s with
  | .bin op l r =>
    let pl := recur l σ
    let pr := recur r pl.2
    if (Sym.bin op l r).domain = [] then
      (simplifyIfConstant env (.bin op pl.1 pr.1), pr.2)
    else
      (.binDisc pr.2.counter op pl.1 pr.1, ⟨pr.2.cache, pr.2.counter + 1⟩)
  | .xAvg x c =>
    recur (.bin divOp (.integralS x c) (.integralS x (onesLike c))) σ
  | .sizeAvg rv fa c =>
    recur (.bin divOp (.integralS rv (.bin multOp fa c)) (.integralS rv fa)) σ
  | .integralS d c =>
    let pc := recur c σ
    (.integralDisc pc.2.counter d pc.1, ⟨pc.2.cache, pc.2.counter + 1⟩)
  | .fullBroadcast ds c =>
    let pc := recur c σ
    if ds = [] then
      (.bin multOp pc.1 (.vector [1]), pc.2)
    else
      (.broadcastDisc pc.2.counter ds pc.1, ⟨pc.2.cache, pc.2.counter + 1⟩)
  | .variableS n d _ =>
    (.stateVec σ.counter (env.ySlicesOf n) d, ⟨σ.cache, σ.counter + 1⟩)
  | sOther => (sOther, σ)

/-- The memo wrapper of `process_symbol` (lines 817-822): a cache hit
returns the stored object unchanged; a miss runs `step`
(`_process_symbol`) and stores the result under the input symbol. -/
def memoStep (step : Sym → DState → Sym × DState) (s : Sym) (σ : DState) :
    Sym × DState :=
  match lookupCache σ.cache s with
  | some r => (r, σ)
  | none =>
    let p := step s σ
    (p.1, ⟨(s, p.1) :: p.2.cache, p.2.counter⟩)

def processSymbolFuel (env : DiscEnv) : Nat → Sym → DState → Sym × DState
  | 0 => fun s σ => memoStep (fun sOther σ₀ => (sOther, σ₀)) s σ
  | fuel + 1 => fun s σ =>
      memoStep (processSymbolAux env (processSymbolFuel env fuel)) s σ

/-- `Discretisation.process_symbol`: run the pass with sufficient fuel
(`processSymbolFuel_irrel` below shows any fuel of at least `msize s`
gives the same result, so the fuel index is semantically inert). -/
def processSymbol (env : DiscEnv) (s : Sym) (σ : DState) : Sym × DState :=
  processSymbolFuel env (msize s) s σ

theorem lookupCache_cons_self (k v : Sym) (c : List (Sym × Sym)) :
    lookupCache ((k, v) :: c) k = some v := by
  simp [lookupCache]

theorem memoStep_lookup_some {step : Sym → DState → Sym × DState} {s r : Sym}
    {σ : DState} (h : lookupCache σ.cache s = some r) :
    memoStep step s σ = (r, σ) := by
  rw [memoStep, h]

theorem memoStep_lookup_none {step : Sym → DState → Sym × DState} {s : Sym}
    {σ : DState} (h : lookupCache σ.cache s = none) :
    memoStep step s σ
      = ((step s σ).1, ⟨(s, (step s σ).1) :: (step s σ).2.cache, (step s σ).2.counter⟩) := by
  rw [memoStep, h]

/-- On a cache miss the memo wrapper stores the freshly computed node
under the input symbol before returning; on a hit the stored binding is
still there. -/
theorem memoStep_caches (step : Sym → DState → Sym × DState) (s : Sym) (σ : DState) :
    lookupCache (memoStep step s σ).2.cache s = some (memoStep step s σ).1 := by
  cases h : lookupCache σ.cache s with
  | some r => rw [memoStep_lookup_some h]; exact h
  | none => rw [memoStep_lookup_none h]; exact lookupCache_cons_self _ _ _

theorem processSymbolFuel_lookup_some {env : DiscEnv} {fuel : Nat} {s r : Sym}
    {σ : DState} (h : lookupCache σ.cache s = some r) :
    processSymbolFuel env fuel s σ = (r, σ) := by
  cases fuel <;> exact memoStep_lookup_some h

theorem processSymbolFuel_caches (env : DiscEnv) (fuel : Nat) (s : Sym) (σ : DState) :
    lookupCache (processSymbolFuel env fuel s σ).2.cache s
      = some (processSymbolFuel env fuel s σ).1 := by
  cases fuel <;> exact memoStep_caches _ s σ

/-- C3. Cache idempotence of `process_symbol`: lowering the same node a
second time within one run returns the identical cached object and leaves
the run state (memo table and allocation counter) completely unchanged,
so nothing is rebuilt — and consequently a subexpression shared by
several parents is lowered exactly once per run. -/
theorem process_symbol_cache_idempotent (env : DiscEnv) (s : Sym) (σ : DState) :
    processSymbol env s (processSymbol env s σ).2
      = ((processSymbol env s σ).1, (processSymbol env s σ).2) := by
  unfold processSymbol
  exact processSymbolFuel_lookup_some (processSymbolFuel_caches env (msize s) s σ)

theorem memoStep_counter_mono (step : Sym → DState → Sym × DState)
    (hstep : ∀ s σ, σ.counter ≤ (step s σ).2.counter) (s : Sym) (σ : DState) :
    σ.counter ≤ (memoStep step s σ).2.counter := by
  cases h : lookupCache σ.cache s with
  | some r => rw [memoStep_lookup_some h]
  | none => rw [memoStep_lookup_none h]; exact hstep s σ

/-- The allocation counter never decreases across a lowering call. -/
theorem processSymbolFuel_counter_mono (env : DiscEnv) :
    ∀ fuel s σ, σ.counter ≤ (processSymbolFuel env fuel s σ).2.counter := by
  intro fuel
  induction fuel with
  | zero =>
    intro s σ
    exact memoStep_counter_mono _ (fun _ _ => le_rfl) s σ
  | succ fuel' ih =>
    intro s σ
    refine memoStep_counter_mono _ (fun t τ => ?_) s σ
    cases t with
    | bin op l r =>
      simp only [processSymbolAux]
      have h1 := ih l τ
      have h2 := ih r (processSymbolFuel env fuel' l τ).2
      split <;> dsimp only <;> omega
    | xAvg x c => simp only [processSymbolAux]; exact ih _ τ
    | sizeAvg rv fa c => simp only [processSymbolAux]; exact ih _ τ
    | integralS d c =>
      simp only [processSymbolAux]
      have h1 := ih c τ
      omega
    | fullBroadcast ds c =>
      simp only [processSymbolAux]
      have h1 := ih c τ
      split <;> dsimp only <;> omega
    | variableS n d a => simp only [processSymbolAux]; omega
    | scalar v => exact le_rfl
    | vector v => exact le_rfl
    | stateVec a sl d => exact le_rfl
    | binDisc a o l r => exact le_rfl
    | integralDisc a d c => exact le_rfl
    | broadcastDisc a d c => exact le_rfl
    | internalNC a l r => exact le_rfl

theorem processSymbol_counter_mono (env : DiscEnv) (s : Sym) (σ : DState) :
    σ.counter ≤ (processSymbol env s σ).2.counter :=
  processSymbolFuel_counter_mono env (msize s) s σ

theorem msize_onesLike (c : Sym) : msize (onesLike c) ≤ 2 := by
  rw [onesLike]; split <;> simp [msize]

/-- The fuel index is inert: any fuel of at least `msize s` computes the
same result, so `processSymbol` is the fuel-free recursion of the source. -/
theorem processSymbolFuel_irrel (env : DiscEnv) :
    ∀ f₁ f₂ s σ, msize s ≤ f₁ → msize s ≤ f₂ →
      processSymbolFuel env f₁ s σ = processSymbolFuel env f₂ s σ := by
  intro f₁
  induction f₁ with
  | zero => intro f₂ s σ h1 _; have := msize_pos s; omega
  | succ a ih =>
    intro f₂ s σ h1 h2
    obtain ⟨b, rfl⟩ : ∃ b, f₂ = b + 1 := ⟨f₂ - 1, by have := msize_pos s; omega⟩
    show memoStep _ s σ = memoStep _ s σ
    cases hl : lookupCache σ.cache s with
    | some r => rw [memoStep_lookup_some hl, memoStep_lookup_some hl]
    | none =>
      rw [memoStep_lookup_none hl, memoStep_lookup_none hl]
      have hstep : processSymbolAux env (processSymbolFuel env a) s σ
          = processSymbolAux env (processSymbolFuel env b) s σ := by
        cases s with
        | bin op l r =>
          simp only [msize] at h1 h2
          simp only [processSymbolAux]
          rw [ih b l σ (by omega) (by omega),
            ih b r (processSymbolFuel env b l σ).2 (by omega) (by omega)]
        | xAvg x c =>
          have hb := msize_onesLike c
          simp only [msize] at h1 h2
          simp only [processSymbolAux]
          exact ih b _ σ (by simp only [msize]; omega) (by simp only [msize]; omega)
        | sizeAvg rv fa c =>
          simp only [msize] at h1 h2
          simp only [processSymbolAux]
          exact ih b _ σ (by simp only [msize]; omega) (by simp only [msize]; omega)
        | integralS d c =>
          simp only [msize] at h1 h2
          simp only [processSymbolAux]
          rw [ih b c σ (by omega) (by omega)]
        | fullBroadcast ds c =>
          simp only [msize] at h1 h2
          simp only [processSymbolAux]
          rw [ih b c σ (by omega) (by omega)]
        | variableS n d aux => rfl
        | scalar v => rfl
        | vector v => rfl
        | stateVec al sl d => rfl
        | binDisc al o l r => rfl
        | integralDisc al d c => rfl
        | broadcastDisc al d c => rfl
        | internalNC al l r => rfl
      rw [hstep]

/-! ## C9: averaging operators lower through the integral-ratio rewrite -/

/-- Recognizer for the `_BaseAverage` node kinds. -/
def Sym.isAverage : Sym → Bool
  | .xAvg _ _ => true
  | .sizeAvg _ _ _ => true
  | _ => false

/-- The spec's refinement target, built from the spec's own words:
an averaging operator stands for `Integral(weighted child) /
Integral(weight)` over the appropriate integration variable — weight 1
(`ones_like child`) for the plain average, the size distribution
`f_a_dist` for `SizeAverage`. -/
def specAverageRatio : Sym → Sym
  | .xAvg x c => .bin divOp (.integralS x c) (.integralS x (onesLike c))
  | .sizeAvg rv fa c =>
    .bin divOp (.integralS rv (.bin multOp fa c)) (.integralS rv fa)
  | s => s

/-- C9. Lowering an averaging node (not yet in the cache) yields exactly
the value obtained by lowering the integral-ratio form of the spec: the
engine has no separate averaging primitive. -/
theorem average_lowers_to_integral_ratio (env : DiscEnv) (s : Sym) (σ : DState)
    (havg : s.isAverage = true) (hmiss : lookupCache σ.cache s = none) :
    (processSymbol env s σ).1 = (processSymbol env (specAverageRatio s) σ).1 := by
  cases s with
  | xAvg x c =>
    have hb := msize_onesLike c
    show (processSymbolFuel env (msize (Sym.xAvg x c)) (Sym.xAvg x c) σ).1 = _
    rw [show msize (Sym.xAvg x c) = (7 + msize c) + 1 by simp [msize]; omega]
    rw [processSymbolFuel]
    dsimp only
    rw [memoStep_lookup_none hmiss]
    simp only [processSymbolAux, specAverageRatio]
    rw [processSymbolFuel_irrel env (7 + msize c) (msize (specAverageRatio (Sym.xAvg x c)))
      _ σ (by simp only [specAverageRatio, msize]; omega)
      (by simp only [specAverageRatio]; exact le_rfl)]
    rfl
  | sizeAvg rv fa c =>
    show (processSymbolFuel env (msize (Sym.sizeAvg rv fa c)) (Sym.sizeAvg rv fa c) σ).1 = _
    rw [show msize (Sym.sizeAvg rv fa c) = (7 + 2 * msize fa + msize c) + 1 by
      simp [msize]; omega]
    rw [processSymbolFuel]
    dsimp only
    rw [memoStep_lookup_none hmiss]
    simp only [processSymbolAux, specAverageRatio]
    rw [processSymbolFuel_irrel env (7 + 2 * msize fa + msize c)
      (msize (specAverageRatio (Sym.sizeAvg rv fa c)))
      _ σ (by simp only [specAverageRatio, msize]; omega)
      (by simp only [specAverageRatio]; exact le_rfl)]
    rfl
  | scalar v => simp [Sym.isAverage] at havg
  | vector v => simp [Sym.isAverage] at havg
  | variableS n d aux => simp [Sym.isAverage] at havg
  | bin o l r => simp [Sym.isAverage] at havg
  | integralS d c => simp [Sym.isAverage] at havg
  | fullBroadcast ds c => simp [Sym.isAverage] at havg
  | stateVec al sl d => simp [Sym.isAverage] at havg
  | binDisc al o l r => simp [Sym.isAverage] at havg
  | integralDisc al d c => simp [Sym.isAverage] at havg
  | broadcastDisc al d c => simp [Sym.isAverage] at havg
  | internalNC al l r => simp [Sym.isAverage] at havg

/-- Witness for C9 at a concrete input: an x-average of a variable over
domain 0, empty cache. -/
theorem average_lowers_to_integral_ratio_witness :
    ((Sym.xAvg 0 (Sym.variableS 1 [0] [])).isAverage = true
      ∧ lookupCache (DState.mk [] 0).cache (Sym.xAvg 0 (Sym.variableS 1 [0] [])) = none)
    ∧ (processSymbol ⟨fun _ => 2, fun _ => 1, fun _ => [⟨0, 2⟩], fun _ a b => a + b⟩
          (Sym.xAvg 0 (Sym.variableS 1 [0] [])) (DState.mk [] 0)).1
        = (processSymbol ⟨fun _ => 2, fun _ => 1, fun _ => [⟨0, 2⟩], fun _ a b => a + b⟩
          (specAverageRatio (Sym.xAvg 0 (Sym.variableS 1 [0] []))) (DState.mk [] 0)).1 :=
  ⟨⟨by decide, by decide⟩,
    average_lowers_to_integral_ratio _ _ _ (by decide) (by decide)⟩

/-! ## Boundary conditions, the `bcs` setter, and internal-BC synthesis -/

/-- Boundary-condition kinds (the strings `"Dirichlet"` / `"Neumann"`). -/
inductive BCType where
  | Dirichlet
  | Neumann
deriving DecidableEq, Repr

/-- A key of the boundary-condition mapping `self.bcs`: a plain variable
or a `Concatenation` (whose `orphans` are its children). -/
inductive BKey where
  | plainK : PlainVar → BKey
  | concatK : (name : Nat) → (children : List PlainVar) → (auxDomains : List Nat) → BKey
deriving DecidableEq, Repr

/-- The per-side entry of `self.bcs[key]`: the `"left"` and `"right"`
`(lowered expression, kind)` pairs. -/
structure SideBC where
  left : Sym × BCType
  right : Sym × BCType
deriving DecidableEq, Repr

/-- First-match lookup in the boundary-condition mapping. -/
def lookupBCs : List (BKey × SideBC) → BKey → Option SideBC
  | [], _ => none
  | (k, v) :: rest, key => if k = key then some v else lookupBCs rest key

/-- Python-dict single-key insertion/overwrite. -/
def insertBC : List (BKey × SideBC) → BKey → SideBC → List (BKey × SideBC)
  | [], k, v => [(k, v)]
  | (k', v') :: rest, k, v =>
    if k' = k then (k, v) :: rest else (k', v') :: insertBC rest k v

/-- Python's `dict.update`: insert every entry of `n` into `m` in order. -/
def updateBCs (m : List (BKey × SideBC)) (n : List (BKey × SideBC)) :
    List (BKey × SideBC) :=
  n.foldl (fun acc kv => insertBC acc kv.1 kv.2) m

/-- The mutable state of a live `Discretisation` instance relevant here:
the processed boundary-condition mapping `self._bcs` and the lowering run
state (`self._discretised_symbols` plus the allocation counter). -/
structure Engine where
  bcs : List (BKey × SideBC)
  dstate : DState
deriving DecidableEq, Repr

/-- The `bcs` property setter (discretisation.py lines 91-95): store the
new mapping and reset `self._discretised_symbols` to `{}` (the allocation
counter is Python object identity and keeps running). -/
def setBcs (eng : Engine) (value : List (BKey × SideBC)) : Engine :=
  { bcs := value, dstate := { cache := [], counter := eng.dstate.counter } }

/-- C8. Assigning a new boundary-condition mapping through the `bcs`
setter replaces the mapping and empties the memoization cache, so no
previously cached lowered node can be returned afterwards: every lookup
in the new cache misses, and any subsequent `process_symbol` call behaves
exactly as on a fresh cache. -/
theorem bcs_setter_swaps_and_invalidates (eng : Engine) (value : List (BKey × SideBC)) :
    (setBcs eng value).bcs = value
    ∧ (∀ s : Sym, lookupCache (setBcs eng value).dstate.cache s = none)
    ∧ (∀ (env : DiscEnv) (s : Sym),
        processSymbol env s (setBcs eng value).dstate
          = processSymbol env s ⟨[], eng.dstate.counter⟩) :=
  ⟨rfl, fun _ => rfl, fun _ _ => rfl⟩

/-- The `pybamm.Variable` node for a layout variable. -/
def varSym (v : PlainVar) : Sym :=
  .variableS v.name v.domain v.auxDomains

/-- The inner `boundary_gradient` of `set_internal_boundary_conditions`
(discretisation.py lines 406-424): lower both neighbouring children
through the memoized pass, then call the left domain's spatial-method
`internal_neumann_condition` on the two lowered symbols — modelled as an
opaque freshly allocated node. -/
def boundaryGradient (env : DiscEnv) (l r : PlainVar) (σ : DState) : Sym × DState :=
  let pl := processSymbol env (varSym l) σ
  let pr := processSymbol env (varSym r) pl.2
  (.internalNC pr.2.counter pl.1 pr.1, ⟨pr.2.cache, pr.2.counter + 1⟩)

/-- The tail of the child loop of `set_internal_boundary_conditions`
(lines 442-453), over `children[1:]`, threading the running right-hand
condition `rbc`: each middle child gets `{"left": previous seam,
"right": fresh seam}`, the last child gets `{"left": previous seam,
"right": outer right BC}`; a child already in the `bc_keys` snapshot gets
no entry. -/
def internalSeams (env : DiscEnv) (bcKeys : List BKey) (outerR : Sym × BCType) :
    Sym × BCType → List PlainVar → DState → List (BKey × SideBC) →
    List (BKey × SideBC) × DState
  | _, [], σ, acc => (acc, σ)
  | rbc, [last], σ, acc =>
    (if BKey.plainK last ∈ bcKeys then acc
     else insertBC acc (.plainK last) ⟨rbc, outerR⟩, σ)
  | rbc, cur :: next :: rest, σ, acc =>
    let g := boundaryGradient env cur next σ
    let rbc' : Sym × BCType := (g.1, .Neumann)
    let acc' := if BKey.plainK cur ∈ bcKeys then acc
      else insertBC acc (.plainK cur) ⟨rbc, rbc'⟩
    internalSeams env bcKeys outerR rbc' (next :: rest) g.2 acc'

/-- One `Concatenation` key of the loop (lines 430-453): read the
concatenation's own entry (`self.bcs[var]`, first argument), compute the
first seam, give the first child `{"left": outer left, "right": seam}`
when absent from `bc_keys`, and hand `children[1:]` to `internalSeams`.
`none` models the source raising (no `self.bcs` entry, or fewer than two
children). -/
def concatInternalBCs (env : DiscEnv) (bcKeys : List BKey) :
    Option SideBC → List PlainVar → DState → List (BKey × SideBC) →
    Option (List (BKey × SideBC) × DState)
  | some sides, c0 :: c1 :: rest, σ, acc =>
    let g := boundaryGradient env c0 c1 σ
    let rbc : Sym × BCType := (g.1, .Neumann)
    let acc1 := if BKey.plainK c0 ∈ bcKeys then acc
      else insertBC acc (.plainK c0) ⟨sides.left, rbc⟩
    some (internalSeams env bcKeys sides.right rbc (c1 :: rest) g.2 acc1)
  | _, _, _, _ => none

/-- The loop over `model.boundary_conditions.keys()` of
`set_internal_boundary_conditions` (lines 429-453), accumulating
`internal_bcs`: non-concatenation keys are skipped; each `Concatenation`
key is handled by `concatInternalBCs`. -/
def internalBCsLoop (env : DiscEnv) (bcKeys : List BKey)
    (bcs0 : List (BKey × SideBC)) :
    List BKey → DState → List (BKey × SideBC) →
    Option (List (BKey × SideBC) × DState)
  | [], σ, acc => some (acc, σ)
  | BKey.plainK _ :: ks, σ, acc => internalBCsLoop env bcKeys bcs0 ks σ acc
  | BKey.concatK nm children aux :: ks, σ, acc =>
    match concatInternalBCs env bcKeys
        (lookupBCs bcs0 (BKey.concatK nm children aux)) children σ acc with
    | some p => internalBCsLoop env bcKeys bcs0 ks p.2 p.1
    | none => none

/-- `Discretisation.set_internal_boundary_conditions`
(discretisation.py lines 399-455): snapshot `bc_keys = list(self.bcs.keys())`,
accumulate `internal_bcs` over the model's boundary-condition keys, then
`self.bcs.update(internal_bcs)`. -/
def setInternalBoundaryConditions (env : DiscEnv) (modelBCKeys : List BKey)
    (eng : Engine) : Option Engine :=
  match internalBCsLoop env (eng.bcs.map Prod.fst) eng.bcs modelBCKeys
      eng.dstate [] with
  | some (internal, σ) => some ⟨updateBCs eng.bcs internal, σ⟩
  | none => none

theorem lookupBCs_insertBC_ne {m : List (BKey × SideBC)} {k k' : BKey} {v : SideBC}
    (h : k' ≠ k) : lookupBCs (insertBC m k v) k' = lookupBCs m k' := by
  induction m with
  | nil =>
    simp only [insertBC, lookupBCs]
    rw [if_neg (fun hc => h hc.symm)]
  | cons kv rest ih =>
    rw [insertBC]
    split
    · rename_i hk
      rw [lookupBCs, lookupBCs, hk]
      rw [if_neg (fun hc => h hc.symm), if_neg (fun hc => h hc.symm)]
    · rw [lookupBCs, lookupBCs]
      split
      · rfl
      · exact ih

theorem lookupBCs_insertBC_self (m : List (BKey × SideBC)) (k : BKey) (v : SideBC) :
    lookupBCs (insertBC m k v) k = some v := by
  induction m with
  | nil => simp [insertBC, lookupBCs]
  | cons kv rest ih =>
    rw [insertBC]
    split
    · simp [lookupBCs]
    · rename_i hk
      rw [lookupBCs, if_neg hk]
      exact ih

theorem keys_insertBC {m : List (BKey × SideBC)} {k k' : BKey} {v : SideBC}
    (h : k' ∈ (insertBC m k v).map Prod.fst) :
    k' ∈ m.map Prod.fst ∨ k' = k := by
  induction m with
  | nil => simpa [insertBC] using h
  | cons kv rest ih =>
    rw [insertBC] at h
    split at h
    · rename_i hk
      simp only [List.map_cons, List.mem_cons] at h ⊢
      rcases h with h | h
      · exact Or.inr h
      · exact Or.inl (Or.inr h)
    · simp only [List.map_cons, List.mem_cons] at h ⊢
      rcases h with h | h
      · exact Or.inl (Or.inl h)
      · rcases ih h with h' | h'
        · exact Or.inl (Or.inr h')
        · exact Or.inr h'

theorem lookupBCs_updateBCs_not_mem {n : List (BKey × SideBC)} :
    ∀ {m : List (BKey × SideBC)} {k : BKey}, k ∉ n.map Prod.fst →
      lookupBCs (updateBCs m n) k = lookupBCs m k := by
  induction n with
  | nil => intro m k _; rfl
  | cons kv rest ih =>
    intro m k hk
    simp only [List.map_cons, List.mem_cons, not_or] at hk
    have : updateBCs m (kv :: rest) = updateBCs (insertBC m kv.1 kv.2) rest := rfl
    rw [this, ih hk.2, lookupBCs_insertBC_ne hk.1]

theorem internalSeams_keys (env : DiscEnv) (bcKeys : List BKey)
    (outerR : Sym × BCType) :
    ∀ (cs : List PlainVar) (rbc : Sym × BCType) (σ : DState)
      (acc : List (BKey × SideBC)),
      (∀ k ∈ acc.map Prod.fst, k ∉ bcKeys) →
      ∀ k ∈ (internalSeams env bcKeys outerR rbc cs σ acc).1.map Prod.fst,
        k ∉ bcKeys := by
  intro cs
  induction cs with
  | nil => intro rbc σ acc hacc; simpa [internalSeams] using hacc
  | cons cur tail ih =>
    intro rbc σ acc hacc
    cases tail with
    | nil =>
      simp only [internalSeams]
      split
      · exact hacc
      · rename_i hcur
        intro k hk
        rcases keys_insertBC hk with h | h
        · exact hacc k h
        · exact h ▸ hcur
    | cons next rest =>
      rw [internalSeams]
      apply ih
      split
      · exact hacc
      · rename_i hcur
        intro k hk
        rcases keys_insertBC hk with h | h
        · exact hacc k h
        · exact h ▸ hcur

theorem concatInternalBCs_keys {env : DiscEnv} {bcKeys : List BKey}
    {osides : Option SideBC} {children : List PlainVar} {σ : DState}
    {acc : List (BKey × SideBC)} {p : List (BKey × SideBC) × DState}
    (hp : concatInternalBCs env bcKeys osides children σ acc = some p)
    (hacc : ∀ k ∈ acc.map Prod.fst, k ∉ bcKeys) :
    ∀ k ∈ p.1.map Prod.fst, k ∉ bcKeys := by
  cases osides with
  | none => exact absurd hp (by cases children <;> simp [concatInternalBCs])
  | some sides =>
    cases children with
    | nil => exact absurd hp (by simp [concatInternalBCs])
    | cons c0 ctail =>
      cases ctail with
      | nil => exact absurd hp (by simp [concatInternalBCs])
      | cons c1 crest =>
        simp only [concatInternalBCs, Option.some_inj] at hp
        subst hp
        apply internalSeams_keys
        split
        · exact hacc
        · rename_i hc0
          intro k hk
          rcases keys_insertBC hk with h | h
          · exact hacc k h
          · exact h ▸ hc0

theorem internalBCsLoop_keys (env : DiscEnv) (bcKeys : List BKey)
    (bcs0 : List (BKey × SideBC)) :
    ∀ (ks : List BKey) (σ : DState) (acc : List (BKey × SideBC))
      (out : List (BKey × SideBC) × DState),
      (∀ k ∈ acc.map Prod.fst, k ∉ bcKeys) →
      internalBCsLoop env bcKeys bcs0 ks σ acc = some out →
      ∀ k ∈ out.1.map Prod.fst, k ∉ bcKeys := by
  intro ks
  induction ks with
  | nil =>
    intro σ acc out hacc hout
    simp only [internalBCsLoop, Option.some_inj] at hout
    exact hout ▸ hacc
  | cons key rest ih =>
    intro σ acc out hacc hout
    cases key with
    | plainK v => exact ih σ acc out hacc hout
    | concatK nm children aux =>
      cases hcv : concatInternalBCs env bcKeys
          (lookupBCs bcs0 (BKey.concatK nm children aux)) children σ acc with
      | none =>
        rw [internalBCsLoop, hcv] at hout
        exact absurd hout (by simp)
      | some p =>
        rw [internalBCsLoop, hcv] at hout
        exact ih _ _ out (concatInternalBCs_keys hcv hacc) hout

/-- C10. `set_internal_boundary_conditions` never overwrites an existing
entry: any key already present in the processed boundary-condition
mapping before the call keeps exactly its old entry afterwards —
synthesized internal conditions are only ever added for children with no
prior entry. -/
theorem internal_bcs_never_overwrite (env : DiscEnv) (modelBCKeys : List BKey)
    (eng eng' : Engine) (k : BKey)
    (h : setInternalBoundaryConditions env modelBCKeys eng = some eng')
    (hk : k ∈ eng.bcs.map Prod.fst) :
    lookupBCs eng'.bcs k = lookupBCs eng.bcs k := by
  rw [setInternalBoundaryConditions] at h
  cases hloop : internalBCsLoop env (eng.bcs.map Prod.fst) eng.bcs modelBCKeys
      eng.dstate [] with
  | none => rw [hloop] at h; exact absurd h (by simp)
  | some out =>
    rw [hloop] at h
    simp only [Option.some_inj] at h
    have hkeys := internalBCsLoop_keys env (eng.bcs.map Prod.fst) eng.bcs
      modelBCKeys eng.dstate [] out (by simp) hloop
    have hnot : k ∉ out.1.map Prod.fst := fun hmem => hkeys k hmem hk
    rw [← h]
    exact lookupBCs_updateBCs_not_mem hnot

/-- C2. Internal-BC synthesis on a 3-child concatenation whose outer
conditions are the user-supplied entry of the concatenation itself and
whose children have no prior entries: resolution succeeds and synthesizes
exactly 2 internal Neumann conditions `g1 ≠ g2` (distinct objects, as
their allocation ids differ); at each interior seam the right BC of the
left child and the left BC of the right child are the very same object
(`g1` at the first seam, `g2` at the second); the middle child gets both
its sides from internal continuity, while the first and last children
keep the user-supplied outer conditions on their outer sides, and the
concatenation's own entry is untouched. -/
theorem internal_bcs_three_children (env : DiscEnv) (nm : Nat) (aux : List Nat)
    (a b c : PlainVar) (lu ru : Sym × BCType) (bcs0 : List (BKey × SideBC))
    (σ : DState)
    (hlk : lookupBCs bcs0 (BKey.concatK nm [a, b, c] aux) = some ⟨lu, ru⟩)
    (ha : BKey.plainK a ∉ bcs0.map Prod.fst)
    (hb : BKey.plainK b ∉ bcs0.map Prod.fst)
    (hc : BKey.plainK c ∉ bcs0.map Prod.fst)
    (hab : a ≠ b) (hac : a ≠ c) (hbc : b ≠ c) :
    ∃ (eng' : Engine) (g1 g2 : Sym),
      setInternalBoundaryConditions env [BKey.concatK nm [a, b, c] aux] ⟨bcs0, σ⟩
          = some eng'
      ∧ g1.isInternalNC = true ∧ g2.isInternalNC = true ∧ g1 ≠ g2
      ∧ lookupBCs eng'.bcs (BKey.plainK a) = some ⟨lu, (g1, BCType.Neumann)⟩
      ∧ lookupBCs eng'.bcs (BKey.plainK b)
          = some ⟨(g1, BCType.Neumann), (g2, BCType.Neumann)⟩
      ∧ lookupBCs eng'.bcs (BKey.plainK c) = some ⟨(g2, BCType.Neumann), ru⟩
      ∧ lookupBCs eng'.bcs (BKey.concatK nm [a, b, c] aux) = some ⟨lu, ru⟩ := by
  have hab' : BKey.plainK a ≠ BKey.plainK b := by simpa using hab
  have hac' : BKey.plainK a ≠ BKey.plainK c := by simpa using hac
  have hbc' : BKey.plainK b ≠ BKey.plainK c := by simpa using hbc
  have hka : BKey.concatK nm [a, b, c] aux ≠ BKey.plainK a := by simp
  have hkb : BKey.concatK nm [a, b, c] aux ≠ BKey.plainK b := by simp
  have hkc : BKey.concatK nm [a, b, c] aux ≠ BKey.plainK c := by simp
  have hcv : concatInternalBCs env (bcs0.map Prod.fst) (some ⟨lu, ru⟩) [a, b, c] σ []
      = some ([(BKey.plainK a,
                ⟨lu, ((boundaryGradient env a b σ).1, BCType.Neumann)⟩),
               (BKey.plainK b,
                ⟨((boundaryGradient env a b σ).1, BCType.Neumann),
                 ((boundaryGradient env b c (boundaryGradient env a b σ).2).1,
                  BCType.Neumann)⟩),
               (BKey.plainK c,
                ⟨((boundaryGradient env b c (boundaryGradient env a b σ).2).1,
                  BCType.Neumann), ru⟩)],
              (boundaryGradient env b c (boundaryGradient env a b σ).2).2) := by
    simp only [concatInternalBCs, internalSeams]
    simp [insertBC, ha, hb, hc, hab', hac', hbc']
  have hloop : internalBCsLoop env (bcs0.map Prod.fst) bcs0
      [BKey.concatK nm [a, b, c] aux] σ []
      = some ([(BKey.plainK a,
                ⟨lu, ((boundaryGradient env a b σ).1, BCType.Neumann)⟩),
               (BKey.plainK b,
                ⟨((boundaryGradient env a b σ).1, BCType.Neumann),
                 ((boundaryGradient env b c (boundaryGradient env a b σ).2).1,
                  BCType.Neumann)⟩),
               (BKey.plainK c,
                ⟨((boundaryGradient env b c (boundaryGradient env a b σ).2).1,
                  BCType.Neumann), ru⟩)],
              (boundaryGradient env b c (boundaryGradient env a b σ).2).2) := by
    simp only [internalBCsLoop, hlk, hcv]
  have hset : setInternalBoundaryConditions env [BKey.concatK nm [a, b, c] aux]
      ⟨bcs0, σ⟩
      = some ⟨updateBCs bcs0
          [(BKey.plainK a,
            ⟨lu, ((boundaryGradient env a b σ).1, BCType.Neumann)⟩),
           (BKey.plainK b,
            ⟨((boundaryGradient env a b σ).1, BCType.Neumann),
             ((boundaryGradient env b c (boundaryGradient env a b σ).2).1,
              BCType.Neumann)⟩),
           (BKey.plainK c,
            ⟨((boundaryGradient env b c (boundaryGradient env a b σ).2).1,
              BCType.Neumann), ru⟩)],
          (boundaryGradient env b c (boundaryGradient env a b σ).2).2⟩ := by
    rw [setInternalBoundaryConditions]
    simp only [hloop]
  have hupd : updateBCs bcs0
      [(BKey.plainK a,
        ⟨lu, ((boundaryGradient env a b σ).1, BCType.Neumann)⟩),
       (BKey.plainK b,
        ⟨((boundaryGradient env a b σ).1, BCType.Neumann),
         ((boundaryGradient env b c (boundaryGradient env a b σ).2).1,
          BCType.Neumann)⟩),
       (BKey.plainK c,
        ⟨((boundaryGradient env b c (boundaryGradient env a b σ).2).1,
          BCType.Neumann), ru⟩)]
      = insertBC (insertBC (insertBC bcs0 (BKey.plainK a)
          ⟨lu, ((boundaryGradient env a b σ).1, BCType.Neumann)⟩)
          (BKey.plainK b)
          ⟨((boundaryGradient env a b σ).1, BCType.Neumann),
           ((boundaryGradient env b c (boundaryGradient env a b σ).2).1,
            BCType.Neumann)⟩)
          (BKey.plainK c)
          ⟨((boundaryGradient env b c (boundaryGradient env a b σ).2).1,
            BCType.Neumann), ru⟩ := rfl
  refine ⟨_, (boundaryGradient env a b σ).1,
    (boundaryGradient env b c (boundaryGradient env a b σ).2).1,
    hset, rfl, rfl, ?_, ?_, ?_, ?_, ?_⟩
  · -- the two seam objects are distinct: their allocation ids differ
    have hm1 := processSymbol_counter_mono env (varSym b) (boundaryGradient env a b σ).2
    have hm2 := processSymbol_counter_mono env (varSym c)
      (processSymbol env (varSym b) (boundaryGradient env a b σ).2).2
    intro h
    have hids :
        (processSymbol env (varSym b) (processSymbol env (varSym a) σ).2).2.counter
          = (processSymbol env (varSym c)
              (processSymbol env (varSym b) (boundaryGradient env a b σ).2).2).2.counter := by
      have h' := h
      rw [show (boundaryGradient env a b σ).1
            = Sym.internalNC
                (processSymbol env (varSym b) (processSymbol env (varSym a) σ).2).2.counter
                (processSymbol env (varSym a) σ).1
                (processSymbol env (varSym b) (processSymbol env (varSym a) σ).2).1
          from rfl,
        show (boundaryGradient env b c (boundaryGradient env a b σ).2).1
            = Sym.internalNC
                (processSymbol env (varSym c)
                  (processSymbol env (varSym b) (boundaryGradient env a b σ).2).2).2.counter
                (processSymbol env (varSym b) (boundaryGradient env a b σ).2).1
                (processSymbol env (varSym c)
                  (processSymbol env (varSym b) (boundaryGradient env a b σ).2).2).1
          from rfl] at h'
      exact (Sym.internalNC.injEq _ _ _ _ _ _).mp h' |>.1
    have hstep : (boundaryGradient env a b σ).2.counter
        = (processSymbol env (varSym b) (processSymbol env (varSym a) σ).2).2.counter + 1 :=
      rfl
    omega
  · rw [hupd, lookupBCs_insertBC_ne hac', lookupBCs_insertBC_ne hab',
      lookupBCs_insertBC_self]
  · rw [hupd, lookupBCs_insertBC_ne hbc', lookupBCs_insertBC_self]
  · rw [hupd, lookupBCs_insertBC_self]
  · rw [hupd, lookupBCs_insertBC_ne hkc, lookupBCs_insertBC_ne hkb,
      lookupBCs_insertBC_ne hka, hlk]

/-! Concrete fixtures used by witnesses. -/

/-- A concrete lowering environment: every domain has 2 mesh nodes, no
auxiliary repeats, every variable laid out at `slice(0, 2)`, binary
operators evaluate as addition. -/
def envW : DiscEnv := ⟨fun _ => 2, fun _ => 1, fun _ => [⟨0, 2⟩], fun _ a b => a + b⟩

def childA : PlainVar := ⟨0, [0], []⟩
def childB : PlainVar := ⟨1, [1], []⟩
def childC : PlainVar := ⟨2, [2], []⟩

/-- A 3-child concatenation key. -/
def concatKeyW : BKey := BKey.concatK 9 [childA, childB, childC] []

/-- User-supplied outer conditions for the concatenation. -/
def outerSidesW : SideBC :=
  ⟨(Sym.scalar 0, BCType.Dirichlet), (Sym.scalar 1, BCType.Neumann)⟩

/-- A pre-existing (user-supplied) entry for the first child. -/
def priorEntryW : SideBC :=
  ⟨(Sym.scalar 7, BCType.Dirichlet), (Sym.scalar 8, BCType.Dirichlet)⟩

/-- Engine state in which the first child already has its own entry. -/
def engOverlapW : Engine :=
  ⟨[(concatKeyW, outerSidesW), (BKey.plainK childA, priorEntryW)], ⟨[], 0⟩⟩

/-- Engine state for the seam witness: only the concatenation itself has
a (user-supplied) entry. -/
def engSeamW : Engine := ⟨[(concatKeyW, outerSidesW)], ⟨[], 0⟩⟩

/-- Witness for C2 at a concrete input: the 3-child concatenation
`concatKeyW` with user outer conditions and children without entries. -/
theorem internal_bcs_three_children_witness :
    (lookupBCs engSeamW.bcs (BKey.concatK 9 [childA, childB, childC] [])
        = some ⟨outerSidesW.left, outerSidesW.right⟩
      ∧ childA ≠ childB ∧ childA ≠ childC ∧ childB ≠ childC)
    ∧ ∃ (eng' : Engine) (g1 g2 : Sym),
        setInternalBoundaryConditions envW
            [BKey.concatK 9 [childA, childB, childC] []]
            ⟨engSeamW.bcs, ⟨[], 0⟩⟩ = some eng'
        ∧ g1.isInternalNC = true ∧ g2.isInternalNC = true ∧ g1 ≠ g2
        ∧ lookupBCs eng'.bcs (BKey.plainK childA)
            = some ⟨outerSidesW.left, (g1, BCType.Neumann)⟩
        ∧ lookupBCs eng'.bcs (BKey.plainK childB)
            = some ⟨(g1, BCType.Neumann), (g2, BCType.Neumann)⟩
        ∧ lookupBCs eng'.bcs (BKey.plainK childC)
            = some ⟨(g2, BCType.Neumann), outerSidesW.right⟩
        ∧ lookupBCs eng'.bcs (BKey.concatK 9 [childA, childB, childC] [])
            = some ⟨outerSidesW.left, outerSidesW.right⟩ :=
  ⟨⟨by decide, by decide, by decide, by decide⟩,
    internal_bcs_three_children envW 9 [] childA childB childC
      outerSidesW.left outerSidesW.right engSeamW.bcs ⟨[], 0⟩
      (by decide) (by decide) (by decide) (by decide)
      (by decide) (by decide) (by decide)⟩

/-- Witness for C10 at a concrete input: a 3-child concatenation where
the first child already has a (user-supplied) entry; that entry survives
resolution unchanged. -/
theorem internal_bcs_never_overwrite_witness :
    BKey.plainK childA ∈ engOverlapW.bcs.map Prod.fst
    ∧ lookupBCs ((setInternalBoundaryConditions envW [concatKeyW]
          engOverlapW).getD engOverlapW).bcs (BKey.plainK childA)
        = lookupBCs engOverlapW.bcs (BKey.plainK childA) :=
  ⟨by decide,
    internal_bcs_never_overwrite envW [concatKeyW] engOverlapW
      ((setInternalBoundaryConditions envW [concatKeyW] engOverlapW).getD engOverlapW)
      (BKey.plainK childA) (by decide) (by decide)⟩

/-! ## Mass-matrix assembly (`create_mass_matrix`) -/

/-- A sparse matrix: dimensions and an entry function (reads outside the
dimensions are never used by the properties below). -/
structure Mat where
  rows : Nat
  cols : Nat
  entry : Nat → Nat → Int

/-- scipy's `block_diag`: place each matrix of the list on the diagonal,
zeros elsewhere. -/
def blockDiag : List Mat → Mat
  | [] => ⟨0, 0, fun _ _ => 0⟩
  | m :: ms =>
    let rest := blockDiag ms
    ⟨m.rows + rest.rows, m.cols + rest.cols,
     fun i j =>
       if i < m.rows then (if j < m.cols then m.entry i j else 0)
       else (if j < m.cols then 0 else rest.entry (i - m.rows) (j - m.cols))⟩

/-- Total rows of the first `k` blocks. -/
def sumRowsTake (l : List Mat) (k : Nat) : Nat := ((l.take k).map Mat.rows).sum

/-- Total columns of the first `k` blocks. -/
def sumColsTake (l : List Mat) (k : Nat) : Nat := ((l.take k).map Mat.cols).sum

theorem sumRowsTake_cons_succ (m : Mat) (ms : List Mat) (k : Nat) :
    sumRowsTake (m :: ms) (k + 1) = m.rows + sumRowsTake ms k := by
  simp [sumRowsTake]

theorem sumColsTake_cons_succ (m : Mat) (ms : List Mat) (k : Nat) :
    sumColsTake (m :: ms) (k + 1) = m.cols + sumColsTake ms k := by
  simp [sumColsTake]

theorem blockDiag_rows (l : List Mat) :
    (blockDiag l).rows = (l.map Mat.rows).sum := by
  induction l with
  | nil => rfl
  | cons m ms ih => simp [blockDiag, ih]

theorem blockDiag_cols (l : List Mat) :
    (blockDiag l).cols = (l.map Mat.cols).sum := by
  induction l with
  | nil => rfl
  | cons m ms ih => simp [blockDiag, ih]

/-- Every nonzero entry of a block-diagonal matrix lies inside one of the
diagonal blocks, and equals that block's entry. -/
theorem blockDiag_entry_ne_zero :
    ∀ (l : List Mat) (i j : Nat), (blockDiag l).entry i j ≠ 0 →
      ∃ k, ∃ hk : k < l.length,
        sumRowsTake l k ≤ i ∧ i < sumRowsTake l k + (l.get ⟨k, hk⟩).rows
        ∧ sumColsTake l k ≤ j ∧ j < sumColsTake l k + (l.get ⟨k, hk⟩).cols
        ∧ (blockDiag l).entry i j
            = (l.get ⟨k, hk⟩).entry (i - sumRowsTake l k) (j - sumColsTake l k) := by
  intro l
  induction l with
  | nil => intro i j h; exact absurd rfl h
  | cons m ms ih =>
    intro i j h
    simp only [blockDiag] at h
    by_cases hi : i < m.rows
    · by_cases hj : j < m.cols
      · refine ⟨0, by simp, ?_⟩
        simp only [sumRowsTake, sumColsTake, List.take_zero, List.map_nil,
          List.sum_nil, List.get, blockDiag]
        exact ⟨Nat.zero_le _, by omega, Nat.zero_le _, by omega,
          by simp [hi, hj]⟩
      · rw [if_pos hi, if_neg hj] at h; exact absurd rfl h
    · by_cases hj : j < m.cols
      · rw [if_neg hi, if_pos hj] at h; exact absurd rfl h
      · rw [if_neg hi, if_neg hj] at h
        obtain ⟨k, hk, h1, h2, h3, h4, h5⟩ := ih (i - m.rows) (j - m.cols) h
        refine ⟨k + 1, by simpa using hk, ?_⟩
        rw [sumRowsTake_cons_succ, sumColsTake_cons_succ]
        simp only [List.get]
        refine ⟨by omega, by omega, by omega, by omega, ?_⟩
        simp only [blockDiag, if_neg hi, if_neg hj]
        rw [h5]
        congr 1 <;> omega

/-- Reading a block-diagonal matrix inside the `k`-th block gives that
block's entry. -/
theorem blockDiag_entry_at :
    ∀ (l : List Mat) (k : Nat) (hk : k < l.length) (i j : Nat),
      i < (l.get ⟨k, hk⟩).rows → j < (l.get ⟨k, hk⟩).cols →
      (blockDiag l).entry (sumRowsTake l k + i) (sumColsTake l k + j)
        = (l.get ⟨k, hk⟩).entry i j := by
  intro l
  induction l with
  | nil => intro k hk; exact absurd hk (by simp)
  | cons m ms ih =>
    intro k hk i j hi hj
    cases k with
    | zero =>
      simp only [List.get] at hi hj ⊢
      simp only [sumRowsTake, sumColsTake, List.take_zero, List.map_nil,
        List.sum_nil, Nat.zero_add, blockDiag]
      simp [hi, hj]
    | succ k' =>
      simp only [List.get] at hi hj ⊢
      rw [sumRowsTake_cons_succ, sumColsTake_cons_succ]
      simp only [blockDiag]
      rw [if_neg (by omega), if_neg (by omega)]
      have hr : m.rows + sumRowsTake ms k' + i - m.rows = sumRowsTake ms k' + i := by
        omega
      have hc : m.cols + sumColsTake ms k' + j - m.cols = sumColsTake ms k' + j := by
        omega
      rw [hr, hc]
      exact ih k' (by simpa using hk) i j hi hj

/-- Stable insertion for `sorted(zip(slices, items))`: `p` goes before
the first element that is not strictly smaller (CPython's `sorted` is
stable and compares the slices lexicographically). -/
def insertSorted {α : Type} (p : Slice × α) : List (Slice × α) → List (Slice × α)
  | [] => [p]
  | q :: rest =>
    if Slice.ltb q.1 p.1 then q :: insertSorted p rest else p :: q :: rest

/-- `sorted(zip(slices, items))` as used by `create_mass_matrix`
(lines 664-666) and `_concatenate_in_order` (line 1110). -/
def sortBySlice {α : Type} : List (Slice × α) → List (Slice × α)
  | [] => []
  | p :: rest => insertSorted p (sortBySlice rest)

theorem insertSorted_perm {α : Type} (p : Slice × α) (l : List (Slice × α)) :
    List.Perm (insertSorted p l) (p :: l) := by
  induction l with
  | nil => exact List.Perm.refl _
  | cons q rest ih =>
    rw [insertSorted]
    split
    · exact (List.Perm.cons q ih).trans (List.Perm.swap p q rest)
    · exact List.Perm.refl _

theorem sortBySlice_perm {α : Type} (l : List (Slice × α)) :
    List.Perm (sortBySlice l) l := by
  induction l with
  | nil => exact List.Perm.refl _
  | cons p rest ih => exact (insertSorted_perm p _).trans (List.Perm.cons p ih)

theorem ltb_start_le {a b : Slice} (h : Slice.ltb a b = true) : a.start ≤ b.start := by
  simp only [Slice.ltb, Bool.or_eq_true, Bool.and_eq_true, decide_eq_true_eq,
    beq_iff_eq] at h
  omega

theorem not_ltb_start_le {a b : Slice} (h : Slice.ltb a b = false) :
    b.start ≤ a.start := by
  simp only [Slice.ltb, Bool.or_eq_false_iff, Bool.and_eq_false_iff] at h
  rcases h with ⟨h1, _⟩
  simp only [decide_eq_false_iff_not] at h1
  omega

theorem insertSorted_chain {α : Type} (p : Slice × α) :
    ∀ l : List (Slice × α),
      l.Chain' (fun x y => x.1.start ≤ y.1.start) →
      (insertSorted p l).Chain' (fun x y => x.1.start ≤ y.1.start) := by
  intro l
  induction l with
  | nil => intro _; simp [insertSorted]
  | cons q rest ih =>
    intro h
    rw [insertSorted]
    rw [List.chain'_cons'] at h
    split
    · rename_i hlt
      rw [List.chain'_cons']
      refine ⟨?_, ih h.2⟩
      intro b hb
      cases rest with
      | nil =>
        simp only [insertSorted, List.head?_cons, Option.mem_def,
          Option.some_inj] at hb
        exact hb ▸ ltb_start_le hlt
      | cons t ts =>
        rw [insertSorted] at hb
        split at hb
        · simp only [List.head?_cons, Option.mem_def, Option.some_inj] at hb
          exact hb ▸ h.1 t rfl
        · simp only [List.head?_cons, Option.mem_def, Option.some_inj] at hb
          exact hb ▸ ltb_start_le hlt
    · rename_i hge
      rw [List.chain'_cons']
      refine ⟨?_, List.chain'_cons'.mpr h⟩
      intro b hb
      simp only [List.head?_cons, Option.mem_def, Option.some_inj] at hb
      exact hb ▸ not_ltb_start_le (by simpa using hge)

theorem sortBySlice_chain {α : Type} (l : List (Slice × α)) :
    (sortBySlice l).Chain' (fun x y => x.1.start ≤ y.1.start) := by
  induction l with
  | nil => simp [sortBySlice]
  | cons p rest ih => exact insertSorted_chain p _ ih

/-- The rhs unknowns re-sorted by their first slice: the
`sorted_model_variables` of `create_mass_matrix` (lines 660-666). -/
def sortedRhsVars (ySl : Var → Slice) (rhsVars : List Var) : List Var :=
  (sortBySlice (rhsVars.map (fun v => (ySl v, v)))).map Prod.snd

/-- The collaborators of `create_mass_matrix`: the per-variable mass
block returned by `spatial_methods[dom].mass_matrix(var, bcs).entries`,
whether a domain's method is `ZeroDimensionalSpatialMethod`/`FiniteVolume`
(identity mass, no inverse computed), and the sparse inverse `inv`. -/
structure MassEnv where
  massMat : Var → Mat
  isIdentityScheme : Nat → Bool
  invMat : Mat → Mat

/-- The scalar block `1.0` appended for a domain-less unknown. -/
def one1 : Mat := ⟨1, 1, fun _ _ => 1⟩

/-- The trailing `csr_matrix((n, n))` of zeros for the algebraic part. -/
def zerosM (n : Nat) : Mat := ⟨n, n, fun _ _ => 0⟩

/-- The block appended to `mass_list` for one ODE unknown (lines
669-680): the scalar 1 for a domain-less variable, else the spatial
method's mass matrix. -/
def massBlock (menv : MassEnv) (v : Var) : Mat :=
  if v.domain = [] then one1 else menv.massMat v

/-- The block appended to `mass_inv_list` (lines 669-692): the mass block
itself for 0-D/finite-volume schemes (already identity), the sparse
inverse otherwise. -/
def massInvBlock (menv : MassEnv) (v : Var) : Mat :=
  if v.domain = [] then one1
  else if menv.isIdentityScheme (v.domain.headD 0) then menv.massMat v
  else menv.invMat (menv.massMat v)

/-- `Discretisation.create_mass_matrix` (discretisation.py lines
634-712): sort the rhs unknowns by their first slice; one block per ODE
unknown in that order — the scalar `1.0` for a domain-less unknown, the
spatial method's mass block otherwise; when any algebraic unknowns exist,
one trailing zero block of size `model.concatenated_algebraic.shape[0]`;
assemble with `block_diag`.  The inverse list reuses the mass block for
identity schemes and takes the sparse inverse otherwise; it exists only
when there are ODE unknowns, and both are `none` for an empty system. -/
def createMassMatrix (menv : MassEnv) (ySl : Var → Slice) (rhsVars : List Var)
    (algVars : List Var) (algSize : Nat) : Option Mat × Option Mat :=
  let sorted := sortedRhsVars ySl rhsVars
  let massList := sorted.map (massBlock menv)
  let massInvList := sorted.map (massInvBlock menv)
  let fullList := massList ++ (if algVars.isEmpty then [] else [zerosM algSize])
  if 0 < rhsVars.length + algVars.length then
    (some (blockDiag fullList),
     if 0 < rhsVars.length then some (blockDiag massInvList) else none)
  else (none, none)

/-- Offset of the `k`-th sorted ODE block: total discretised width of
the earlier unknowns in slice-sorted order. -/
def odeOff (genv : MeshEnv) (ySl : Var → Slice) (rhsVars : List Var) (k : Nat) : Nat :=
  (((sortedRhsVars ySl rhsVars).take k).map (varWidth genv)).sum

theorem sumRowsTake_mass (menv : MassEnv) (genv : MeshEnv) (ySl : Var → Slice)
    (rhsVars : List Var) (tr : List Mat)
    (hrw : ∀ v ∈ sortedRhsVars ySl rhsVars,
      (massBlock menv v).rows = varWidth genv v)
    (k : Nat) (hkle : k ≤ (sortedRhsVars ySl rhsVars).length) :
    sumRowsTake ((sortedRhsVars ySl rhsVars).map (massBlock menv) ++ tr) k
      = odeOff genv ySl rhsVars k := by
  rw [sumRowsTake, List.take_append_of_le_length (by simpa using hkle),
    ← List.map_take, List.map_map, odeOff]
  exact congrArg List.sum
    (List.map_congr_left (fun v hv => hrw v (List.mem_of_mem_take hv)))

theorem sumColsTake_mass (menv : MassEnv) (genv : MeshEnv) (ySl : Var → Slice)
    (rhsVars : List Var) (tr : List Mat)
    (hcw : ∀ v ∈ sortedRhsVars ySl rhsVars,
      (massBlock menv v).cols = varWidth genv v)
    (k : Nat) (hkle : k ≤ (sortedRhsVars ySl rhsVars).length) :
    sumColsTake ((sortedRhsVars ySl rhsVars).map (massBlock menv) ++ tr) k
      = odeOff genv ySl rhsVars k := by
  rw [sumColsTake, List.take_append_of_le_length (by simpa using hkle),
    ← List.map_take, List.map_map, odeOff]
  exact congrArg List.sum
    (List.map_congr_left (fun v hv => hcw v (List.mem_of_mem_take hv)))

/-- C4. Shape of the assembled mass matrix, under the spatial-method
contract that every mass block is square of the variable's discretised
width: for any non-empty system the matrix exists; it is square of
dimension `lenRhs + algSize` (the discretised `len(rhs) + len(algebraic)`,
with `hlen` recording that the concatenated rhs length is the total
width of the rhs unknowns and `algSize` being
`model.concatenated_algebraic.shape[0]`); every nonzero entry lies inside
the diagonal block of one ODE unknown, the blocks standing in
slice-sorted order (a permutation of the rhs unknowns sorted by slice
start, not insertion order); a domain-less unknown contributes the
scalar block `1`; and every entry in a row or column at or beyond
`lenRhs` is zero — the trailing algebraic block of size `algSize` is all
zero. -/
theorem create_mass_matrix_shape (menv : MassEnv) (genv : MeshEnv)
    (ySl : Var → Slice) (rhsVars algVars : List Var) (algSize lenRhs : Nat)
    (hmass : ∀ v ∈ rhsVars, v.domain ≠ [] →
      (menv.massMat v).rows = varWidth genv v
      ∧ (menv.massMat v).cols = varWidth genv v)
    (hw1 : ∀ v ∈ rhsVars, v.domain = [] → varWidth genv v = 1)
    (hlen : lenRhs = (rhsVars.map (varWidth genv)).sum)
    (halg : algVars = [] → algSize = 0)
    (hne : 0 < rhsVars.length + algVars.length) :
    ∃ m : Mat,
      (createMassMatrix menv ySl rhsVars algVars algSize).1 = some m
      ∧ m.rows = lenRhs + algSize ∧ m.cols = lenRhs + algSize
      ∧ (∀ i j, m.entry i j ≠ 0 →
          ∃ k, ∃ hk : k < (sortedRhsVars ySl rhsVars).length,
            odeOff genv ySl rhsVars k ≤ i
            ∧ i < odeOff genv ySl rhsVars k
                + varWidth genv ((sortedRhsVars ySl rhsVars).get ⟨k, hk⟩)
            ∧ odeOff genv ySl rhsVars k ≤ j
            ∧ j < odeOff genv ySl rhsVars k
                + varWidth genv ((sortedRhsVars ySl rhsVars).get ⟨k, hk⟩))
      ∧ (∀ k, ∀ hk : k < (sortedRhsVars ySl rhsVars).length,
          ((sortedRhsVars ySl rhsVars).get ⟨k, hk⟩).domain = [] →
          varWidth genv ((sortedRhsVars ySl rhsVars).get ⟨k, hk⟩) = 1
          ∧ m.entry (odeOff genv ySl rhsVars k) (odeOff genv ySl rhsVars k) = 1)
      ∧ (∀ i j, lenRhs ≤ i ∨ lenRhs ≤ j → m.entry i j = 0)
      ∧ List.Perm (sortedRhsVars ySl rhsVars) rhsVars
      ∧ ((sortBySlice (rhsVars.map (fun v => (ySl v, v)))).map Prod.fst).Chain'
          (fun s t => s.start ≤ t.start) := by
  have hperm : List.Perm (sortedRhsVars ySl rhsVars) rhsVars := by
    have h2 := (sortBySlice_perm (rhsVars.map (fun v => (ySl v, v)))).map Prod.snd
    have h3 : List.map (Prod.snd ∘ fun v => (ySl v, v)) rhsVars = rhsVars :=
      List.map_congr_left (fun v _ => rfl) |>.trans (List.map_id rhsVars)
    rw [List.map_map, h3] at h2
    exact h2
  have hmem : ∀ v ∈ sortedRhsVars ySl rhsVars, v ∈ rhsVars :=
    fun v hv => hperm.mem_iff.mp hv
  have hrw : ∀ v ∈ sortedRhsVars ySl rhsVars,
      (massBlock menv v).rows = varWidth genv v := by
    intro v hv
    rw [massBlock]
    split
    · rename_i hd; rw [hw1 v (hmem v hv) hd]; rfl
    · rename_i hd; exact (hmass v (hmem v hv) hd).1
  have hcw : ∀ v ∈ sortedRhsVars ySl rhsVars,
      (massBlock menv v).cols = varWidth genv v := by
    intro v hv
    rw [massBlock]
    split
    · rename_i hd; rw [hw1 v (hmem v hv) hd]; rfl
    · rename_i hd; exact (hmass v (hmem v hv) hd).2
  have hsum : ((sortedRhsVars ySl rhsVars).map (varWidth genv)).sum = lenRhs := by
    rw [hlen]
    exact (hperm.map (varWidth genv)).sum_eq
  have hblrows : ((sortedRhsVars ySl rhsVars).map (massBlock menv)).map Mat.rows
      = (sortedRhsVars ySl rhsVars).map (varWidth genv) := by
    rw [List.map_map]
    exact List.map_congr_left hrw
  have hblcols : ((sortedRhsVars ySl rhsVars).map (massBlock menv)).map Mat.cols
      = (sortedRhsVars ySl rhsVars).map (varWidth genv) := by
    rw [List.map_map]
    exact List.map_congr_left hcw
  have htrrows : ((if algVars.isEmpty then ([] : List Mat)
      else [zerosM algSize]).map Mat.rows).sum = algSize := by
    cases halgE : algVars.isEmpty
    · simp [zerosM]
    · simp [halg (List.isEmpty_iff.mp halgE), zerosM]
  have htrcols : ((if algVars.isEmpty then ([] : List Mat)
      else [zerosM algSize]).map Mat.cols).sum = algSize := by
    cases halgE : algVars.isEmpty
    · simp [zerosM]
    · simp [halg (List.isEmpty_iff.mp halgE), zerosM]
  have hrowsfull : (blockDiag ((sortedRhsVars ySl rhsVars).map (massBlock menv)
      ++ (if algVars.isEmpty then [] else [zerosM algSize]))).rows
      = lenRhs + algSize := by
    rw [blockDiag_rows, List.map_append, List.sum_append, hblrows, hsum, htrrows]
  have hcolsfull : (blockDiag ((sortedRhsVars ySl rhsVars).map (massBlock menv)
      ++ (if algVars.isEmpty then [] else [zerosM algSize]))).cols
      = lenRhs + algSize := by
    rw [blockDiag_cols, List.map_append, List.sum_append, hblcols, hsum, htrcols]
  -- the (k+1)-st prefix width is at most the total rhs width
  have hbound : ∀ k, ∀ hkl : k < (sortedRhsVars ySl rhsVars).length,
      odeOff genv ySl rhsVars k
        + varWidth genv ((sortedRhsVars ySl rhsVars).get ⟨k, hkl⟩) ≤ lenRhs := by
    intro k hkl
    have hsucc : odeOff genv ySl rhsVars k
        + varWidth genv ((sortedRhsVars ySl rhsVars).get ⟨k, hkl⟩)
        = (((sortedRhsVars ySl rhsVars).map (varWidth genv)).take (k + 1)).sum := by
      rw [odeOff, List.map_take,
        List.sum_take_succ _ k (by simpa using hkl), List.getElem_map,
        List.get_eq_getElem]
    rw [hsucc, ← hsum]
    conv_rhs => rw [← List.take_append_drop (k + 1)
      ((sortedRhsVars ySl rhsVars).map (varWidth genv))]
    rw [List.sum_append]
    exact Nat.le_add_right _ _
  -- every nonzero entry lies inside the diagonal block of one sorted unknown
  have hblocks : ∀ i j,
      (blockDiag ((sortedRhsVars ySl rhsVars).map (massBlock menv)
        ++ (if algVars.isEmpty then [] else [zerosM algSize]))).entry i j ≠ 0 →
      ∃ k, ∃ hk : k < (sortedRhsVars ySl rhsVars).length,
        odeOff genv ySl rhsVars k ≤ i
        ∧ i < odeOff genv ySl rhsVars k
            + varWidth genv ((sortedRhsVars ySl rhsVars).get ⟨k, hk⟩)
        ∧ odeOff genv ySl rhsVars k ≤ j
        ∧ j < odeOff genv ySl rhsVars k
            + varWidth genv ((sortedRhsVars ySl rhsVars).get ⟨k, hk⟩) := by
    intro i j hij
    obtain ⟨k, hk, b1, b2, b3, b4, b5⟩ := blockDiag_entry_ne_zero _ i j hij
    by_cases hkl : k < (sortedRhsVars ySl rhsVars).length
    · refine ⟨k, hkl, ?_, ?_, ?_, ?_⟩
      · rw [← sumRowsTake_mass menv genv ySl rhsVars _ hrw k (Nat.le_of_lt hkl)]
        exact b1
      · rw [← sumRowsTake_mass menv genv ySl rhsVars _ hrw k (Nat.le_of_lt hkl)]
        have hget : (((sortedRhsVars ySl rhsVars).map (massBlock menv)
            ++ (if algVars.isEmpty then [] else [zerosM algSize])).get ⟨k, hk⟩).rows
            = varWidth genv ((sortedRhsVars ySl rhsVars).get ⟨k, hkl⟩) := by
          rw [List.get_eq_getElem,
            List.getElem_append_left (by simpa using hkl), List.getElem_map]
          exact hrw _ (List.getElem_mem _)
        rw [← hget]
        exact b2
      · rw [← sumColsTake_mass menv genv ySl rhsVars _ hcw k (Nat.le_of_lt hkl)]
        exact b3
      · rw [← sumColsTake_mass menv genv ySl rhsVars _ hcw k (Nat.le_of_lt hkl)]
        have hget : (((sortedRhsVars ySl rhsVars).map (massBlock menv)
            ++ (if algVars.isEmpty then [] else [zerosM algSize])).get ⟨k, hk⟩).cols
            = varWidth genv ((sortedRhsVars ySl rhsVars).get ⟨k, hkl⟩) := by
          rw [List.get_eq_getElem,
            List.getElem_append_left (by simpa using hkl), List.getElem_map]
          exact hcw _ (List.getElem_mem _)
        rw [← hget]
        exact b4
    · -- the index can only fall in the trailing zero block: contradiction
      exfalso
      have hbl : ((sortedRhsVars ySl rhsVars).map (massBlock menv)).length
          = (sortedRhsVars ySl rhsVars).length := List.length_map _ _
      cases halgE : algVars.isEmpty
      · -- algebraic part nonempty: the entry sits in the all-zero block
        have hidx : k - ((sortedRhsVars ySl rhsVars).map (massBlock menv)).length
            = 0 := by
          rw [halgE] at hk
          simp only [List.length_append, List.length_map, List.length_cons,
            List.length_nil, Bool.false_eq_true, if_false] at hk
          rw [hbl]
          omega
        have hget : (((sortedRhsVars ySl rhsVars).map (massBlock menv)
            ++ (if algVars.isEmpty then [] else [zerosM algSize])).get ⟨k, hk⟩)
            = zerosM algSize := by
          rw [List.get_eq_getElem,
            List.getElem_append_right (by rw [hbl]; exact Nat.le_of_not_lt hkl)]
          simp [halgE, hidx]
        rw [hget] at b5
        exact hij (b5.trans rfl)
      · -- no algebraic unknowns: there is no trailing block at all
        rw [halgE] at hk
        simp only [List.length_append, List.length_map, List.length_nil,
          if_true, List.length_cons] at hk
        exact hkl (by simp at hk; omega)
  refine ⟨blockDiag ((sortedRhsVars ySl rhsVars).map (massBlock menv)
      ++ (if algVars.isEmpty then [] else [zerosM algSize])), ?_, hrowsfull,
      hcolsfull, hblocks, ?_, ?_, hperm, ?_⟩
  · rw [createMassMatrix]
    simp only [if_pos hne]
  · -- a domain-less unknown contributes the scalar block 1 on the diagonal
    intro k hk hdom
    refine ⟨hw1 _ (hmem _ (List.get_mem _ _ _)) hdom, ?_⟩
    have hkfull : k < (((sortedRhsVars ySl rhsVars).map (massBlock menv))
        ++ (if algVars.isEmpty then [] else [zerosM algSize])).length := by
      simp only [List.length_append, List.length_map]
      omega
    have hblk : (((sortedRhsVars ySl rhsVars).map (massBlock menv)
        ++ (if algVars.isEmpty then [] else [zerosM algSize])).get ⟨k, hkfull⟩)
        = one1 := by
      rw [List.get_eq_getElem, List.getElem_append_left (by simpa using hk),
        List.getElem_map, massBlock]
      rw [List.get_eq_getElem] at hdom
      rw [if_pos hdom]
    have h01 : (0 : Nat) < (((sortedRhsVars ySl rhsVars).map (massBlock menv)
        ++ (if algVars.isEmpty then [] else [zerosM algSize])).get ⟨k, hkfull⟩).rows := by
      rw [hblk]; exact Nat.zero_lt_one
    have h02 : (0 : Nat) < (((sortedRhsVars ySl rhsVars).map (massBlock menv)
        ++ (if algVars.isEmpty then [] else [zerosM algSize])).get ⟨k, hkfull⟩).cols := by
      rw [hblk]; exact Nat.zero_lt_one
    have hat := blockDiag_entry_at _ k hkfull 0 0 h01 h02
    rw [hblk] at hat
    rw [sumRowsTake_mass menv genv ySl rhsVars _ hrw k (Nat.le_of_lt hk),
      sumColsTake_mass menv genv ySl rhsVars _ hcw k (Nat.le_of_lt hk),
      Nat.add_zero] at hat
    exact hat
  · -- rows/columns at or beyond the ODE part are zero
    intro i j hij
    by_contra hnz
    obtain ⟨k, hkl, b1, b2, b3, b4⟩ := hblocks i j hnz
    have hb := hbound k hkl
    rcases hij with hij | hij <;> omega
  · have hch := sortBySlice_chain (rhsVars.map (fun v => (ySl v, v)))
    rw [List.chain'_map]
    exact hch

/-- Mass-matrix collaborators for the witness: every spatial mass block
is the 1×1 identity, identity schemes everywhere. -/
def massEnvW : MassEnv := ⟨fun _ => one1, fun _ => true, fun m => m⟩

/-- Slice assignment for the witness model. -/
def ySlW : Var → Slice := fun v =>
  match v with
  | Var.plain ⟨3, _, _⟩ => ⟨0, 1⟩
  | _ => ⟨1, 3⟩

/-- Witness for C4 at a concrete input: one domain-less ODE unknown
(name 3) followed by one algebraic unknown (name 4) discretised to 2
equations. -/
theorem create_mass_matrix_shape_witness :
    ((∀ v ∈ [Var.plain ⟨3, [], []⟩], v.domain ≠ [] →
        (massEnvW.massMat v).rows = varWidth meshEnvA v
        ∧ (massEnvW.massMat v).cols = varWidth meshEnvA v)
      ∧ (∀ v ∈ [Var.plain ⟨3, [], []⟩], v.domain = [] → varWidth meshEnvA v = 1)
      ∧ (1 : Nat) = ([Var.plain ⟨3, [], []⟩].map (varWidth meshEnvA)).sum
      ∧ (0 : Nat) < [Var.plain ⟨3, [], []⟩].length + [Var.plain ⟨4, [0], []⟩].length)
    ∧ ∃ m : Mat,
      (createMassMatrix massEnvW ySlW [Var.plain ⟨3, [], []⟩]
          [Var.plain ⟨4, [0], []⟩] 2).1 = some m
      ∧ m.rows = 1 + 2 ∧ m.cols = 1 + 2
      ∧ (∀ i j, m.entry i j ≠ 0 →
          ∃ k, ∃ hk : k < (sortedRhsVars ySlW [Var.plain ⟨3, [], []⟩]).length,
            odeOff meshEnvA ySlW [Var.plain ⟨3, [], []⟩] k ≤ i
            ∧ i < odeOff meshEnvA ySlW [Var.plain ⟨3, [], []⟩] k
                + varWidth meshEnvA
                    ((sortedRhsVars ySlW [Var.plain ⟨3, [], []⟩]).get ⟨k, hk⟩)
            ∧ odeOff meshEnvA ySlW [Var.plain ⟨3, [], []⟩] k ≤ j
            ∧ j < odeOff meshEnvA ySlW [Var.plain ⟨3, [], []⟩] k
                + varWidth meshEnvA
                    ((sortedRhsVars ySlW [Var.plain ⟨3, [], []⟩]).get ⟨k, hk⟩))
      ∧ (∀ k, ∀ hk : k < (sortedRhsVars ySlW [Var.plain ⟨3, [], []⟩]).length,
          ((sortedRhsVars ySlW [Var.plain ⟨3, [], []⟩]).get ⟨k, hk⟩).domain = [] →
          varWidth meshEnvA
              ((sortedRhsVars ySlW [Var.plain ⟨3, [], []⟩]).get ⟨k, hk⟩) = 1
          ∧ m.entry (odeOff meshEnvA ySlW [Var.plain ⟨3, [], []⟩] k)
              (odeOff meshEnvA ySlW [Var.plain ⟨3, [], []⟩] k) = 1)
      ∧ (∀ i j, 1 ≤ i ∨ 1 ≤ j → m.entry i j = 0)
      ∧ List.Perm (sortedRhsVars ySlW [Var.plain ⟨3, [], []⟩]) [Var.plain ⟨3, [], []⟩]
      ∧ (((sortBySlice ([Var.plain ⟨3, [], []⟩].map (fun v => (ySlW v, v)))).map
            Prod.fst).Chain' (fun s t => s.start ≤ t.start)) :=
  ⟨⟨by decide, by decide, by decide, by decide⟩,
    create_mass_matrix_shape massEnvW meshEnvA ySlW [Var.plain ⟨3, [], []⟩]
      [Var.plain ⟨4, [0], []⟩] 2 1
      (by decide) (by decide) (by decide) (by decide) (by decide)⟩

/-! ## C5: the empty-model check of `process_model` -/

/-- The model data consumed by the up-front checks of
`Discretisation.process_model` (discretisation.py lines 130-145):
the `is_discretised` flag and the sizes of `model.rhs`,
`model.algebraic` and `model.variables`. -/
structure ModelShape where
  isDiscretised : Bool
  rhsKeys : List Var
  algKeys : List Var
  varNames : List Nat
deriving DecidableEq, Repr

/-- The errors those checks can raise: "Cannot re-discretise a model."
and "Cannot discretise empty model". -/
inductive ModelCheckError where
  | rediscretise
  | emptyModel
deriving DecidableEq, Repr

/-- The up-front checks of `process_model` (lines 130-145): an already
discretised model is an error; then the "Cannot discretise empty model"
error is raised only when `model.rhs`, `model.algebraic` **and**
`model.variables` are all empty. -/
def processModelChecks (m : ModelShape) : Option ModelCheckError :=
  if m.isDiscretised then some .rediscretise
  else if m.rhsKeys.length = 0 ∧ m.algKeys.length = 0 ∧ m.varNames.length = 0 then
    some .emptyModel
  else none

/-- Counterexample to C5 as stated: a model whose unknown set (rhs keys ∪
algebraic keys) is empty but whose `variables` dict is nonempty passes
the emptiness check of `process_model` without any error. -/
theorem empty_unknowns_without_error :
    (ModelShape.mk false [] [] [5]).rhsKeys = []
    ∧ (ModelShape.mk false [] [] [5]).algKeys = []
    ∧ processModelChecks (ModelShape.mk false [] [] [5]) = none := by decide

/-- C5 amended: on a not-yet-discretised model the "Cannot discretise
empty model" error is raised exactly when the rhs keys, the algebraic
keys **and** the declared output variables are all empty — an empty
unknown set alone does not trigger it. -/
theorem empty_model_error_iff (m : ModelShape) (hnd : m.isDiscretised = false) :
    processModelChecks m = some ModelCheckError.emptyModel
      ↔ (m.rhsKeys = [] ∧ m.algKeys = [] ∧ m.varNames = []) := by
  rw [processModelChecks, hnd]
  simp only [Bool.false_eq_true, if_false]
  split
  · rename_i hcond
    simp only [List.length_eq_zero] at hcond
    simp [hcond]
  · rename_i hcond
    simp only [List.length_eq_zero] at hcond
    simp [hcond]

/-- Witness for the amended C5 at a concrete input. -/
theorem empty_model_error_iff_witness :
    (ModelShape.mk false [] [] []).isDiscretised = false
    ∧ (processModelChecks (ModelShape.mk false [] [] [])
          = some ModelCheckError.emptyModel
        ↔ ((ModelShape.mk false [] [] []).rhsKeys = []
           ∧ (ModelShape.mk false [] [] []).algKeys = []
           ∧ (ModelShape.mk false [] [] []).varNames = [])) :=
  ⟨rfl, empty_model_error_iff (ModelShape.mk false [] [] []) rfl⟩

/-! ## C6: the completeness check of `_concatenate_in_order` -/

/-- A declared unknown's name. -/
def Var.nameOf : Var → Nat
  | .plain v => v.name
  | .concatV nm _ _ => nm

/-- The unpacking of `_concatenate_in_order` (lines 1081-1088): a
`ConcatenationVariable` key contributes itself and all its children, any
other key just itself.  The same unpacking builds the external-variable
set of lines 1093-1096 (`var.children` is empty for a plain variable). -/
def unpackKeys : List Var → List Var
  | [] => []
  | Var.plain v :: rest => Var.plain v :: unpackKeys rest
  | Var.concatV nm ch aux :: rest =>
    (Var.concatV nm ch aux :: ch.map Var.plain) ++ unpackKeys rest

/-- `y_slices_with_external_removed` (lines 1097-1099): the laid-out keys
minus the external variables and their children. -/
def removeExternals (ySliceKeys externals : List Var) : List Var :=
  ySliceKeys.filter (fun k => decide (k ∉ unpackKeys externals))

/-- The error of lines 1100-1105: "Initial conditions are insufficient.
Only provided for {given_variable_names}" — it carries the names of the
**provided** keys. -/
inductive ConcatError where
  | insufficientICs (providedNames : List Nat)
deriving DecidableEq, Repr

/-- Python `set` equality of the two key collections. -/
def sameSet (xs ys : List Var) : Bool :=
  xs.all (fun x => decide (x ∈ ys)) && ys.all (fun y => decide (y ∈ xs))

/-- `Discretisation._concatenate_in_order` (lines 1053-1112): unpack the
provided keys; with `check_complete` compare them as sets against the
laid-out keys minus the externals, raising the insufficient-ICs error on
mismatch; otherwise concatenate the equations sorted by each key's first
slice. -/
def concatenateInOrder (ySliceKeys externals : List Var) (ySl : Var → Slice)
    (entries : List (Var × Sym)) (checkComplete : Bool) :
    Except ConcatError (List Sym) :=
  if checkComplete
      && !(sameSet (unpackKeys (entries.map Prod.fst))
            (removeExternals ySliceKeys externals)) then
    .error (.insufficientICs ((entries.map Prod.fst).map Var.nameOf))
  else
    .ok ((sortBySlice (entries.map (fun kv => (ySl kv.1, kv.2)))).map Prod.snd)

/-- Counterexample to C6 as stated: with unknowns named 0 and 1 laid out
and an initial condition provided only for unknown 0, assembling the
initial vector raises — but the message names the provided unknown 0;
the missing unknown's name 1 appears nowhere in it. -/
theorem missing_ic_message_names_provided_only :
    concatenateInOrder [Var.plain ⟨0, [], []⟩, Var.plain ⟨1, [], []⟩] []
        (fun _ => ⟨0, 1⟩) [(Var.plain ⟨0, [], []⟩, Sym.scalar 2)] true
      = .error (.insufficientICs [0])
    ∧ (1 : Nat) ∉ [(0 : Nat)] := ⟨rfl, by decide⟩

/-- C6 amended: if some laid-out, non-external unknown has no provided
initial condition, `_concatenate_in_order` (with `check_complete`) raises
the insufficient-ICs error — whose message names the unknowns that were
provided, not the missing one. -/
theorem missing_initial_condition_errors (ySliceKeys externals : List Var)
    (ySl : Var → Slice) (entries : List (Var × Sym)) (v : Var)
    (hv : v ∈ removeExternals ySliceKeys externals)
    (hvm : v ∉ unpackKeys (entries.map Prod.fst)) :
    concatenateInOrder ySliceKeys externals ySl entries true
      = .error (.insufficientICs ((entries.map Prod.fst).map Var.nameOf)) := by
  rw [concatenateInOrder]
  have hss : sameSet (unpackKeys (entries.map Prod.fst))
      (removeExternals ySliceKeys externals) = false := by
    cases hss : sameSet (unpackKeys (entries.map Prod.fst))
        (removeExternals ySliceKeys externals)
    · rfl
    · exfalso
      have h2 := (Bool.and_eq_true _ _ |>.mp hss).2
      rw [List.all_eq_true] at h2
      have hc := h2 v hv
      rw [decide_eq_true_eq] at hc
      exact hvm hc
  rw [hss]
  simp

/-- Witness for the amended C6 at the concrete two-unknown input. -/
theorem missing_initial_condition_errors_witness :
    (Var.plain ⟨1, [], []⟩ ∈ removeExternals
        [Var.plain ⟨0, [], []⟩, Var.plain ⟨1, [], []⟩] []
      ∧ Var.plain ⟨1, [], []⟩ ∉ unpackKeys
          ([(Var.plain ⟨0, [], []⟩, Sym.scalar 2)].map Prod.fst))
    ∧ concatenateInOrder [Var.plain ⟨0, [], []⟩, Var.plain ⟨1, [], []⟩] []
        (fun _ => ⟨0, 1⟩) [(Var.plain ⟨0, [], []⟩, Sym.scalar 2)] true
      = .error (.insufficientICs
          (([(Var.plain ⟨0, [], []⟩, Sym.scalar 2)].map Prod.fst).map Var.nameOf)) :=
  ⟨⟨by decide, by decide⟩,
    missing_initial_condition_errors _ _ _ _ (Var.plain ⟨1, [], []⟩)
      (by decide) (by decide)⟩

/-! ## C7: the broadcast rule of `process_dict` -/

/-- A key of a `{key: equation}` dict fed to `process_dict`: `model.rhs`,
`model.algebraic` and `model.initial_conditions` are keyed by `Variable`
symbols, while `model.variables` — the declared outputs — is keyed by
name strings (cf. `check_variables`, line 1173, which looks outputs up by
`rhs_var.name`). -/
inductive DKey where
  | strK (name : Nat)
  | varK (v : PlainVar)
deriving DecidableEq, Repr

/-- `isinstance(eqn_key, str)`. -/
def DKey.isStr : DKey → Bool
  | .strK _ => true
  | .varK _ => false

/-- `eqn_key.domains` (the broadcast target); a string has none. -/
def DKey.domains : DKey → List Nat
  | .strK _ => []
  | .varK v => v.domain

/-- Modelled from the spec (`shape_for_testing`, not under `src/`): the
number of entries an expression evaluates to under the testing shape —
`np.prod(eqn.shape_for_testing)` of line 791.  A domain-less scalar has
size 1; domained quantities take their discretised width. -/
def symTestSize (env : DiscEnv) : Sym → Nat
  | .scalar _ => 1
  | .vector vs => vs.length
  | .variableS _ d aux =>
    if d = [] then 1 else (d.map (fun dm => env.npts dm * env.repeats aux)).sum
  | .bin _ l r => max (symTestSize env l) (symTestSize env r)
  | .integralS _ _ => 1
  | .xAvg _ _ => 1
  | .sizeAvg _ _ _ => 1
  | .fullBroadcast ds c => (ds.map env.npts).sum * symTestSize env c
  | .stateVec _ slices _ => (slices.map (fun sl => sl.stop - sl.start)).sum
  | .binDisc _ _ l r => max (symTestSize env l) (symTestSize env r)
  | .integralDisc _ _ _ => 1
  | .broadcastDisc _ ds _ => (ds.map env.npts).sum
  | .internalNC _ _ _ => 1

/-- `Discretisation.process_dict` (lines 770-800): an equation whose
testing shape has a single entry **and** whose key is not a string is
first wrapped in `FullBroadcast(eqn, broadcast_domains=eqn_key.domains)`;
every (possibly wrapped) equation is then lowered via `process_symbol`,
threading the run state. -/
def processDict (env : DiscEnv) :
    List (DKey × Sym) → DState → List (DKey × Sym) × DState
  | [], σ => ([], σ)
  | (key, eqn) :: rest, σ =>
    let eqn' := if symTestSize env eqn = 1 ∧ key.isStr = false
      then Sym.fullBroadcast key.domains eqn else eqn
    let p := processSymbol env eqn' σ
    let q := processDict env rest p.2
    ((key, p.1) :: q.1, q.2)

/-- Counterexample to C7 as stated: a declared output (string-keyed, as
outputs are) whose equation is the domain-less size-1 scalar 3 is lowered
to that very scalar — size 1, not any domain's discretised width (every
domain of `envW` has width 2), and not the lowered broadcast form. -/
theorem output_scalar_not_broadcast :
    (processDict envW [(DKey.strK 7, Sym.scalar 3)] ⟨[], 0⟩).1
      = [(DKey.strK 7, Sym.scalar 3)]
    ∧ symTestSize envW (Sym.scalar 3) = 1
    ∧ ([0].map envW.npts).sum = 2
    ∧ (processSymbol envW (Sym.fullBroadcast [0] (Sym.scalar 3)) ⟨[], 0⟩).1
        ≠ Sym.scalar 3 := by decide

/-- C7 amended: `process_dict` auto-broadcasts a size-1 equation to the
key's domains exactly when the key is a symbol — as in the rhs, algebraic
and initial-condition dicts — while a string-keyed output equation is
lowered unchanged, never broadcast. -/
theorem process_dict_broadcast_rule (env : DiscEnv) (v : PlainVar) (nmk : Nat)
    (eqn : Sym) (rest : List (DKey × Sym)) (σ : DState)
    (hsize : symTestSize env eqn = 1) :
    (processDict env ((DKey.varK v, eqn) :: rest) σ).1
        = (DKey.varK v, (processSymbol env (Sym.fullBroadcast v.domain eqn) σ).1)
          :: (processDict env rest
              (processSymbol env (Sym.fullBroadcast v.domain eqn) σ).2).1
    ∧ (processDict env ((DKey.strK nmk, eqn) :: rest) σ).1
        = (DKey.strK nmk, (processSymbol env eqn σ).1)
          :: (processDict env rest (processSymbol env eqn σ).2).1 := by
  constructor
  · rw [processDict]
    rw [if_pos ⟨hsize, rfl⟩]
    rfl
  · rw [processDict]
    rw [if_neg (fun hcond => by simpa [DKey.isStr] using hcond.2)]

/-- Witness for the amended C7 at a concrete input. -/
theorem process_dict_broadcast_rule_witness :
    symTestSize envW (Sym.scalar 3) = 1
    ∧ ((processDict envW [(DKey.varK ⟨6, [0], []⟩, Sym.scalar 3)] ⟨[], 0⟩).1
        = [(DKey.varK ⟨6, [0], []⟩,
            (processSymbol envW (Sym.fullBroadcast [0] (Sym.scalar 3)) ⟨[], 0⟩).1)]
      ∧ (processDict envW [(DKey.strK 6, Sym.scalar 3)] ⟨[], 0⟩).1
        = [(DKey.strK 6, (processSymbol envW (Sym.scalar 3) ⟨[], 0⟩).1)]) := by
  constructor
  · decide
  · have h := process_dict_broadcast_rule envW ⟨6, [0], []⟩ 6 (Sym.scalar 3) []
      ⟨[], 0⟩ (by decide)
    constructor
    · rw [h.1]; decide
    · rw [h.2]; decide

end PybammDisc
